import Mathlib

/-!
Verification of `torchrec/distributed/quant_embedding.py`
(`ShardedQuantEmbeddingCollection` and its helper functions).

Tensors are modelled as Lean lists: a 2-d tensor of shape
`(total_values, embedding_dim)` is a `List Row` where `Row` is a type
parameter (one element per row).  A `KeyedJaggedTensor` is modelled by the
`KJT` structure below.  Python `torch.split(x, sizes, dim=0)` is modelled by
`splitByLengths` (take/drop semantics), `torch.Tensor.index_select(0, idx)`
by `indexSelect`, `lengths.view(-1, stride)` followed by `torch.unbind`
by `viewRows`.
-/


/-- `torch.split(xs, ns, dim=0)`: consecutive chunks of `xs` of sizes `ns`. -/
def splitByLengths : List Nat → List α → List (List α)
  | [], _ => []
  | n :: ns, xs => xs.take n :: splitByLengths ns (xs.drop n)

/-- `torch.Tensor.index_select(0, idx)`: `out[j] = xs[idx[j]]`. -/
def indexSelect [Inhabited α] (xs : List α) (idx : List Nat) : List α :=
  idx.map (fun j => xs.getD j default)

/-- `t.view(-1, stride)` followed by `torch.unbind(·, dim=0)`: the rows of the
reshaped tensor. -/
def viewRows (stride : Nat) (xs : List α) : List (List α) :=
  splitByLengths (List.replicate (xs.length / stride) stride) xs

/-! ## KeyedJaggedTensor model

`keys` is the ordered feature-key list; `lengths` is the flat per-(key,
example) length tensor laid out key-major (key `i`'s per-example lengths
occupy positions `i*stride .. (i+1)*stride`); `values` is the flat value
tensor, key-major then example-major; `stride` is the batch size. -/

structure KJT where
  keys : List String
  values : List Nat
  lengths : List Nat
  stride : Nat
deriving Repr, DecidableEq, Inhabited

/-- Well-formedness: the lengths tensor has one row of `stride` entries per
key, and the values tensor has exactly as many entries as the lengths claim. -/
def KJT.wf (k : KJT) : Prop :=
  k.lengths.length = k.keys.length * k.stride ∧ k.values.length = k.lengths.sum

instance (k : KJT) : Decidable k.wf := by unfold KJT.wf; infer_instance

/-- `kjt.lengths().view(-1, stride)` unbound into per-key rows. -/
def KJT.lengthsRows (k : KJT) : List (List Nat) := viewRows k.stride k.lengths

/-- `kjt.length_per_key()`: total number of values for each key. -/
def KJT.lengthPerKey (k : KJT) : List Nat := k.lengthsRows.map List.sum

/-- The flat values split into per-key chunks. -/
def KJT.valuesPerKey (k : KJT) : List (List Nat) :=
  splitByLengths k.lengthPerKey k.values

/-! ## JaggedTensor and python-dict model -/

structure JaggedTensor (Row : Type) where
  values : List Row
  lengths : List Nat
  weights : Option (List Nat)
deriving Repr, DecidableEq

/-- Python-`dict` semantics over an insertion-ordered binding list: the last
binding for a key wins. -/
def dictLookup (d : List (String × β)) (key : String) : Option β :=
  (d.reverse.find? (fun p => p.1 = key)).map (fun p => p.2)

/-! ## Embedding of `_construct_jagged_tensors_tw` (src lines 102-134) -/

/-- One iteration of the outer loop of `_construct_jagged_tensors_tw`: the
bindings inserted into `ret` for destination tensor `emb_i` and destination
features `f_i`. -/
def twPerDest (Row : Type) (emb_i : List Row) (f_i : KJT) (needIndices : Bool) :
    List (String × JaggedTensor Row) :=
  let lengthsTuple := viewRows f_i.stride f_i.lengths
  let lengthPerKey := f_i.lengthPerKey
  let embeddingsList := splitByLengths lengthPerKey emb_i
  let valuesList := splitByLengths lengthPerKey f_i.values
  (List.range f_i.keys.length).map (fun j =>
    (f_i.keys.getD j "",
      { values := embeddingsList.getD j []
        lengths := lengthsTuple.getD j []
        weights := if needIndices then some (valuesList.getD j []) else none }))

/-- `_construct_jagged_tensors_tw(embeddings, features, need_indices)`:
python-dict updates become an insertion-ordered binding list. -/
def constructJaggedTensorsTw (Row : Type) (embeddings : List (List Row))
    (features : List KJT) (needIndices : Bool) :
    List (String × JaggedTensor Row) :=
  ((List.range embeddings.length).map (fun i =>
    twPerDest Row (embeddings.getD i []) (features.getD i default) needIndices)).flatten

/-! ## Embedding of `_construct_jagged_tensors_rw` (src lines 137-167) -/

/-- `_construct_jagged_tensors_rw(embeddings, features_before_input_dist,
need_indices, unbucketize_tensor)`. -/
def constructJaggedTensorsRw (Row : Type) [Inhabited Row]
    (embeddings : List (List Row)) (featuresBeforeInputDist : KJT)
    (needIndices : Bool) (unbucketizeTensor : List Nat) :
    List (String × JaggedTensor Row) :=
  let unbucketizedEmbs := indexSelect (embeddings.flatten) unbucketizeTensor
  let embsSplitPerKey :=
    splitByLengths featuresBeforeInputDist.lengthPerKey unbucketizedEmbs
  let lengthsList :=
    viewRows featuresBeforeInputDist.stride featuresBeforeInputDist.lengths
  let valuesList :=
    splitByLengths featuresBeforeInputDist.lengthPerKey
      featuresBeforeInputDist.values
  (List.range featuresBeforeInputDist.keys.length).map (fun i =>
    (featuresBeforeInputDist.keys.getD i "",
      { values := embsSplitPerKey.getD i []
        lengths := lengthsList.getD i []
        weights := if needIndices then some (valuesList.getD i []) else none }))

/-- `_construct_jagged_tensors` (src lines 170-188): dispatch on whether an
unbucketize tensor is present (row-wise) or not (table-wise). -/
def constructJaggedTensors (Row : Type) [Inhabited Row]
    (embeddings : List (List Row)) (features : List KJT)
    (featuresBeforeInputDist : KJT) (needIndices : Bool)
    (unbucketizeTensor : Option (List Nat)) :
    List (String × JaggedTensor Row) :=
  match unbucketizeTensor with
  | some t =>
      constructJaggedTensorsRw Row embeddings featuresBeforeInputDist
        needIndices t
  | none => constructJaggedTensorsTw Row embeddings features needIndices

/-! ## Embedding of `output_jt_dict` (src lines 191-229)

The source zips five per-sharding lists (embeddings, post-distribution
features, `embedding_names_per_rank`, unbucketize-tensor indices and
pre-distribution features) and accumulates `dict.update`s.  The
`embedding_names_per_rank` argument is never read by
`_construct_jagged_tensors`, and the `unbucketize_tensors` list plus
`-1`-sentinel index list (an fx-tracing artifact built in `output_dist`, of
the same length as the other zipped lists) is collapsed here into the
`Option (List Nat)` it encodes; neither changes the zip's truncation length
nor any produced binding. -/

def outputJtDict (Row : Type) [Inhabited Row]
    (embPerSharding : List (List (List Row)))
    (featuresPerSharding : List (List KJT))
    (needIndices : Bool)
    (featuresBeforeInputDistPerSharding : List KJT)
    (unbucketizeTensorPerSharding : List (Option (List Nat))) :
    List (String × JaggedTensor Row) :=
  ((embPerSharding.zip (featuresPerSharding.zip
      (featuresBeforeInputDistPerSharding.zip unbucketizeTensorPerSharding))).map
    (fun p =>
      constructJaggedTensors Row p.1 p.2.1 p.2.2.1 needIndices p.2.2.2)).flatten

/-! ## Construction-time configuration checks -/

/-- `ShardingType.TABLE_WISE.value`. -/
def shardingTypeTableWise : String := "table_wise"

/-- `ShardingType.ROW_WISE.value`. -/
def shardingTypeRowWise : String := "row_wise"

/-- The two sharding strategies `create_infer_embedding_sharding` can build. -/
inductive ShardingKind
  | tableWise
  | rowWise
deriving DecidableEq, Repr

/-- Errors raised during `ShardedQuantEmbeddingCollection.__init__`:
the `ValueError` of `create_infer_embedding_sharding` (src line 93) and the
`AssertionError` of the quant-state-dict scale/bias check (src line 326). -/
inductive InitError
  | unsupportedShardingType (shardingType : String)
  | quantStateDictAssert
deriving DecidableEq, Repr

/-- `create_infer_embedding_sharding` (src lines 77-93). -/
def createInferEmbeddingSharding (shardingType : String) :
    Except InitError ShardingKind :=
  if shardingType = shardingTypeTableWise then .ok .tableWise
  else if shardingType = shardingTypeRowWise then .ok .rowWise
  else .error (.unsupportedShardingType shardingType)

/-- Left-to-right effectful map, as a python comprehension that can raise. -/
def mapExcept (f : α → Except ε β) : List α → Except ε (List β)
  | [] => .ok []
  | x :: xs => do
      let y ← f x
      let ys ← mapExcept f xs
      pure (y :: ys)

/-- The configuration checks of `ShardedQuantEmbeddingCollection.__init__`
(src lines 244-343): first the `_sharding_type_to_sharding` comprehension
calls `create_infer_embedding_sharding` on every sharding type of the
assignment (raising on an unsupported type), then — only when
`is_fused_param_quant_state_dict_split_scale_bias(fused_params)` is false —
asserts that every sharding type is table-wise. -/
def shardedQuantEcInit (shardingTypes : List String)
    (quantStateDictSplitScaleBias : Bool) :
    Except InitError (List ShardingKind) := do
  let shardings ← mapExcept createInferEmbeddingSharding shardingTypes
  if quantStateDictSplitScaleBias then
    pure shardings
  else
    if shardingTypes.all (fun t => t = shardingTypeTableWise) then
      pure shardings
    else
      .error .quantStateDictAssert

/-! ## KeyedJaggedTensor `split` and `permute` -/

/-- `KeyedJaggedTensor.split(segments)`: partition the key sequence into
consecutive groups of the given sizes, each sub-collection carrying the
lengths rows and value chunks of its keys. -/
def KJT.split (k : KJT) (sizes : List Nat) : List KJT :=
  let keyGroups := splitByLengths sizes k.keys
  let lenGroups := splitByLengths (sizes.map (fun n => n * k.stride)) k.lengths
  let lpkGroups := splitByLengths sizes k.lengthPerKey
  let valGroups := splitByLengths (lpkGroups.map List.sum) k.values
  (List.range sizes.length).map (fun i =>
    { keys := keyGroups.getD i []
      lengths := lenGroups.getD i []
      values := valGroups.getD i []
      stride := k.stride })

/-- `KeyedJaggedTensor.permute(indices)`: reorder keys together with their
lengths rows and value chunks. -/
def KJT.permute (k : KJT) (order : List Nat) : KJT :=
  { keys := order.map (fun i => k.keys.getD i "")
    lengths := (order.map (fun i => k.lengthsRows.getD i [])).flatten
    values := (order.map (fun i => k.valuesPerKey.getD i [])).flatten
    stride := k.stride }

/-- The flat value sequence of a collection, each value tagged with its
feature key (key-major order, as laid out in `values`). -/
def KJT.taggedValues (f : KJT) : List (String × Nat) :=
  ((List.range f.keys.length).map (fun i =>
    (f.valuesPerKey.getD i []).map (fun v => (f.keys.getD i "", v)))).flatten

/-! ## Sharding strategies

`create_infer_embedding_sharding` returns `InferTwSequenceEmbeddingSharding`
or `InferRwSequenceEmbeddingSharding`; their input distributors, lookups and
output distributors live outside this repository excerpt, so they are
modelled from the spec below (spec sections 4.2-4.5). -/

/-- Modelled from the spec: a table-wise inference sharding strategy — the
code of `InferTwSequenceEmbeddingSharding` is not part of the excerpt.  It
"sends whole tables to single destinations": destination rank `r` serves the
features `featureNamesPerRank[r]`, and `feature_names()` is their
concatenation. -/
structure TwStrategy where
  featureNamesPerRank : List (List String)
deriving DecidableEq, Repr, Inhabited

/-- Modelled from the spec: a row-wise inference sharding strategy — the code
of `InferRwSequenceEmbeddingSharding` is not part of the excerpt.  Each
feature's table has its rows range-partitioned into `worldSize` consecutive
blocks; `blockOf` gives the feature's rows-per-destination block size. -/
structure RwStrategy where
  featureNames : List String
  worldSize : Nat
  blockSizes : List (String × Nat)
deriving DecidableEq, Repr, Inhabited

/-- Rows-per-destination block size of a feature (default 1). -/
def RwStrategy.blockOf (r : RwStrategy) (key : String) : Nat :=
  (((r.blockSizes.find? (fun p => p.1 = key)).map (fun p => p.2)).getD 1)

/-- Destination rank of value `v` of feature `key` under range bucketing. -/
def rwBucketOf (r : RwStrategy) (key : String) (v : Nat) : Nat :=
  v / r.blockOf key

inductive Strategy
  | tw (t : TwStrategy)
  | rw (r : RwStrategy)
deriving DecidableEq, Repr, Inhabited

/-- `sharding.feature_names()`. -/
def Strategy.featureNames : Strategy → List String
  | .tw t => t.featureNamesPerRank.flatten
  | .rw r => r.featureNames

/-! ## Spec-modelled input distributors and lookups -/

/-- Modelled from the spec: the row-wise input distributor
(`InferRwSparseFeaturesDist`, not in the excerpt) bucketizes a collection for
destination `rank`: every (key, example) slot keeps, in order, the values
whose bucket is `rank`, rebased to shard-local row indices, with the slot
lengths recomputed accordingly. -/
def rwBucketizeRank (r : RwStrategy) (f : KJT) (rank : Nat) : KJT :=
  { keys := f.keys
    stride := f.stride
    lengths := ((List.range f.keys.length).map (fun i =>
      (splitByLengths (f.lengthsRows.getD i []) (f.valuesPerKey.getD i [])).map
        (fun c =>
          (c.filter (fun v => rwBucketOf r (f.keys.getD i "") v = rank)).length))).flatten
    values := ((List.range f.keys.length).map (fun i =>
      ((f.valuesPerKey.getD i []).filter
          (fun v => rwBucketOf r (f.keys.getD i "") v = rank)).map
        (fun v => v - rank * r.blockOf (f.keys.getD i "")))).flatten }

/-- Flat positions of `f.values` grouped by destination rank: rank 0's
positions in original order, then rank 1's, and so on — the order in which
the bucketized values sit in the concatenation of all destinations'
tensors. -/
def rwBucketOrder (r : RwStrategy) (f : KJT) : List Nat :=
  ((List.range r.worldSize).map (fun rank =>
    (List.range f.taggedValues.length).filter (fun p =>
      rwBucketOf r (f.taggedValues.getD p ("", 0)).1
        (f.taggedValues.getD p ("", 0)).2 = rank))).flatten

/-- Modelled from the spec: the unbucketize permutation recorded by the
row-wise input distributor — "a sequence mapping each redistributed value
back to its original pre-bucketization position": entry `j` is the position
of original value `j` inside the concatenated bucketized order, so that
`index_select` with it restores the original order. -/
def rwUnbucketize (r : RwStrategy) (f : KJT) : List Nat :=
  (List.range f.taggedValues.length).map (fun j => (rwBucketOrder r f).indexOf j)

/-- Modelled from the spec: the device-local Lookup for one table-wise
destination — "given flat indices/offsets and a table weight store, returns
gathered rows", one embedding row per value in the destination collection's
flat order, each row taken from the table serving the value's feature. -/
def lookupTensor (Row : Type) (emb : String → Nat → Row) (g : KJT) : List Row :=
  g.taggedValues.map (fun t => emb t.1 t.2)

/-- Modelled from the spec: the device-local Lookup for row-wise destination
`rank`, whose shard holds rows `[rank*blockOf f, (rank+1)*blockOf f)` of each
feature's table; a shard-local index `u` therefore addresses global row
`u + rank * blockOf f`. -/
def rwLookupTensor (Row : Type) (emb : String → Nat → Row) (r : RwStrategy)
    (rank : Nat) (g : KJT) : List Row :=
  g.taggedValues.map (fun t => emb t.1 (t.2 + rank * r.blockOf t.1))

/-- `input_dist.forward` of one strategy plus the unbucketize permutation the
orchestrator reads back from it (`None` unless row-wise, src lines 427-429). -/
def strategyInputDist (st : Strategy) (f : KJT) : List KJT × Option (List Nat) :=
  match st with
  | .tw t => (f.split (t.featureNamesPerRank.map List.length), none)
  | .rw r =>
      ((List.range r.worldSize).map (fun rank => rwBucketizeRank r f rank),
        some (rwUnbucketize r f))

/-- `lookup.forward` of one strategy: one raw tensor per destination rank. -/
def strategyLookup (Row : Type) (emb : String → Nat → Row) (st : Strategy)
    (kjts : List KJT) : List (List Row) :=
  match st with
  | .tw _ => kjts.map (fun g => lookupTensor Row emb g)
  | .rw r => (List.range kjts.length).map (fun rank =>
      rwLookupTensor Row emb r rank (kjts.getD rank default))

/-! ## Orchestrator: `ShardedQuantEmbeddingCollection` state and methods -/

/-- `InferSequenceShardingContext` as populated by `input_dist`
(src lines 423-431). -/
structure ShardingContext where
  features : List KJT
  featuresBeforeInputDist : KJT
  unbucketizePermuteTensor : Option (List Nat)
deriving Repr, DecidableEq, Inhabited

/-- Modelled from the spec: each sharding's sequence output distributor
gathers the per-destination raw tensors to this process; in this
single-process model the list of per-destination tensors passes through
unchanged. -/
def strategyOutputDist (Row : Type) (_st : Strategy)
    (embeddings : List (List Row)) (_c : ShardingContext) : List (List Row) :=
  embeddings

/-- The construction-time configuration of a sharded collection: the
strategies of `_sharding_type_to_sharding` (in dict order), `_need_indices`,
and the per-table weight store consulted by the lookups (a function from
feature key and row index to the embedding row). -/
structure QECModule (Row : Type) where
  strategies : List Strategy
  needIndices : Bool
  emb : String → Nat → Row

/-- The mutable fields of `ShardedQuantEmbeddingCollection` touched by
`_create_input_dist` / `_create_output_dist` / `input_dist`
(src lines 285-294 and 345-432). -/
structure QECState where
  hasUninitializedInputDist : Bool
  hasUninitializedOutputDist : Bool
  inputDists : List Strategy
  outputDists : List Strategy
  featureSplits : List Nat
  featuresOrder : List Nat
deriving Repr, DecidableEq

/-- The state right after `__init__` (src lines 285-294): empty distributor
lists, empty routing metadata, both lazy-init flags set. -/
def initialQECState : QECState :=
  { hasUninitializedInputDist := true
    hasUninitializedOutputDist := true
    inputDists := []
    outputDists := []
    featureSplits := []
    featuresOrder := [] }

/-- The `_features_order` computation of `_create_input_dist`
(src lines 359-366): the position in the input's key list of each strategy
feature, cleared to `[]` when it is the identity permutation. -/
def computedFeaturesOrder (featureNames inputFeatureNames : List String) :
    List Nat :=
  let order := featureNames.map (fun f => inputFeatureNames.indexOf f)
  if order = List.range order.length then [] else order

/-- `_create_input_dist` (src lines 345-371): appends one input distributor
per strategy, records the per-strategy feature counts in `_feature_splits`,
and computes `_features_order`. -/
def createInputDist (Row : Type) (m : QECModule Row) (s : QECState)
    (inputFeatureNames : List String) : QECState :=
  let featureNames := (m.strategies.map Strategy.featureNames).flatten
  let featureSplits := m.strategies.map (fun st => st.featureNames.length)
  { s with
      inputDists := s.inputDists ++ m.strategies
      featureSplits := featureSplits
      featuresOrder := computedFeaturesOrder featureNames inputFeatureNames }

/-- `_create_output_dist` (src lines 383-388). -/
def createOutputDist (Row : Type) (m : QECModule Row) (s : QECState) : QECState :=
  { s with outputDists := s.outputDists ++ m.strategies }

/-- The features value `input_dist` works on after the optional permute
(src lines 410-414): the input itself when `_features_order` is empty,
otherwise the input permuted by `_features_order`. -/
def inputDistEffectiveFeatures (features : KJT) (featuresOrder : List Nat) :
    KJT :=
  if featuresOrder.isEmpty then features else features.permute featuresOrder

/-- `input_dist` (src lines 392-432): lazily initializes the input/output
distributors on first call, permutes the input when `_features_order` is
set, splits it by `_feature_splits`, runs every input distributor, and
appends one sharding context per distributor (recording the
post-distribution features, `features` as it stands after the permute —
the full, unsplit collection — and the unbucketize permutation for row-wise
distributors).  Returns the updated state, the appended contexts and the
distributed features. -/
def inputDistCall (Row : Type) (m : QECModule Row) (s : QECState)
    (features : KJT) : QECState × List ShardingContext × List (List KJT) :=
  let s₁ := if s.hasUninitializedInputDist then
      { createInputDist Row m s features.keys with hasUninitializedInputDist := false }
    else s
  let s₂ := if s₁.hasUninitializedOutputDist then
      { createOutputDist Row m s₁ with hasUninitializedOutputDist := false }
    else s₁
  let permuted := inputDistEffectiveFeatures features s₂.featuresOrder
  let featuresBySharding := permuted.split s₂.featureSplits
  let results := (List.range s₂.inputDists.length).map (fun i =>
    strategyInputDist (s₂.inputDists.getD i default)
      (featuresBySharding.getD i default))
  let ctxs := results.map (fun res =>
    { features := res.1
      featuresBeforeInputDist := permuted
      unbucketizePermuteTensor := res.2 : ShardingContext })
  (s₂, ctxs, results.map (fun res => res.1))

/-- `compute` (src lines 434-446): zips the lookups (one per strategy, fixed
at construction) with the distributed input.  The `view(-1, embedding_dim)`
of the source is a shape assertion that leaves the rows unchanged. -/
def computeCall (Row : Type) (m : QECModule Row)
    (distInput : List (List KJT)) : List (List (List Row)) :=
  (m.strategies.zip distInput).map (fun p => strategyLookup Row m.emb p.1 p.2)

/-- `output_dist` (src lines 449-489): zips the output distributors, the
computed embeddings and the sharding contexts (python `zip` stops at the
shortest list), runs each output distributor, and hands the per-sharding
data to `output_jt_dict`. -/
def outputDistCall (Row : Type) [Inhabited Row] (m : QECModule Row)
    (s : QECState) (output : List (List (List Row)))
    (ctxs : List ShardingContext) : List (String × JaggedTensor Row) :=
  let triples := s.outputDists.zip (output.zip ctxs)
  let embPerSharding := triples.map (fun t => strategyOutputDist Row t.1 t.2.1 t.2.2)
  let featuresPerSharding := triples.map (fun t => t.2.2.features)
  let fbidPerSharding := triples.map (fun t => t.2.2.featuresBeforeInputDist)
  let unbucketizePerSharding :=
    triples.map (fun t => t.2.2.unbucketizePermuteTensor)
  outputJtDict Row embPerSharding featuresPerSharding m.needIndices
    fbidPerSharding unbucketizePerSharding

/-- `compute_and_output_dist` (src lines 492-495). -/
def computeAndOutputDistCall (Row : Type) [Inhabited Row] (m : QECModule Row)
    (s : QECState) (ctxs : List ShardingContext)
    (input : List (List KJT)) : List (String × JaggedTensor Row) :=
  outputDistCall Row m s (computeCall Row m input) ctxs

/-- `forward` (src lines 498-501): fresh context, `input_dist`, then
`compute_and_output_dist`. -/
def forwardCall (Row : Type) [Inhabited Row] (m : QECModule Row)
    (s : QECState) (features : KJT) :
    QECState × List (String × JaggedTensor Row) :=
  let r := inputDistCall Row m s features
  (r.1, computeAndOutputDistCall Row m r.1 r.2.1 r.2.2)

/-! ## The reference unsharded forward pass -/

/-- Modelled from the spec: the reference single-destination forward pass a
sharded forward is compared against (spec section 8, "Round-trip
correctness") — for every feature key, its per-example lengths and, as
values, the embedding rows of its input ids in order, with the ids
themselves as weights when indices are requested. -/
def referenceForward (Row : Type) (emb : String → Nat → Row)
    (needIndices : Bool) (f : KJT) : List (String × JaggedTensor Row) :=
  (List.range f.keys.length).map (fun i =>
    (f.keys.getD i "",
      { values := (f.valuesPerKey.getD i []).map (emb (f.keys.getD i ""))
        lengths := f.lengthsRows.getD i []
        weights := if needIndices then some (f.valuesPerKey.getD i []) else none }))

/-- The row-partitioning of a strategy covers every value of the batch: each
value's destination bucket is a valid rank.  (Trivially true for table-wise
strategies, whose routing is per-feature, not per-value.) -/
def strategyBucketsBounded (st : Strategy) (B : KJT) : Prop :=
  match st with
  | .tw _ => True
  | .rw r => ∀ t ∈ B.taggedValues, rwBucketOf r t.1 t.2 < r.worldSize

instance (st : Strategy) (B : KJT) : Decidable (strategyBucketsBounded st B) := by
  unfold strategyBucketsBounded
  cases st <;> infer_instance

/-! ## Concrete test fixtures (the spec's section-8 scenario) -/

/-- A concrete weight store: two 4-row tables, rows encoded as single
numbers. -/
def testEmb (key : String) (v : Nat) : Nat :=
  if key = "feature_0" then v else 100 + v

/-- The spec's concrete scenario batch: keys `["feature_0","feature_1"]`,
values `[0,1,2,0,1,2]`, lengths `[2,0,1,2,0,1]`, three examples. -/
def testBatch : KJT :=
  { keys := ["feature_0", "feature_1"]
    values := [0, 1, 2, 0, 1, 2]
    lengths := [2, 0, 1, 2, 0, 1]
    stride := 3 }

/-- Row-wise sharding of both 4-row tables across 2 destinations
(block size 2). -/
def testRwStrategy : Strategy :=
  .rw { featureNames := ["feature_0", "feature_1"]
        worldSize := 2
        blockSizes := [("feature_0", 2), ("feature_1", 2)] }

/-- Table-wise sharding: `feature_0`'s table on rank 0, `feature_1`'s on
rank 1. -/
def testTwStrategy : Strategy :=
  .tw { featureNamesPerRank := [["feature_0"], ["feature_1"]] }

/-- A mixed assignment: `feature_0` table-wise, `feature_1` row-wise. -/
def testMixedModule : QECModule Nat :=
  { strategies := [.tw { featureNamesPerRank := [["feature_0"]] },
      .rw { featureNames := ["feature_1"]
            worldSize := 2
            blockSizes := [("feature_1", 2)] }]
    needIndices := false
    emb := testEmb }

/-- The variant of `input_dist` that claim C10 compares against: where the
source skips the permute because `_features_order` is empty, this variant
explicitly permutes with the identity permutation; it is identical
otherwise. -/
def inputDistCallAlwaysPermute (Row : Type) (m : QECModule Row) (s : QECState)
    (features : KJT) : QECState × List ShardingContext × List (List KJT) :=
  let s₁ := if s.hasUninitializedInputDist then
      { createInputDist Row m s features.keys with
          hasUninitializedInputDist := false }
    else s
  let s₂ := if s₁.hasUninitializedOutputDist then
      { createOutputDist Row m s₁ with hasUninitializedOutputDist := false }
    else s₁
  let permuted := if s₂.featuresOrder.isEmpty
    then features.permute (List.range features.keys.length)
    else features.permute s₂.featuresOrder
  let featuresBySharding := permuted.split s₂.featureSplits
  let results := (List.range s₂.inputDists.length).map (fun i =>
    strategyInputDist (s₂.inputDists.getD i default)
      (featuresBySharding.getD i default))
  let ctxs := results.map (fun res =>
    { features := res.1
      featuresBeforeInputDist := permuted
      unbucketizePermuteTensor := res.2 : ShardingContext })
  (s₂, ctxs, results.map (fun res => res.1))

/-- The behavior claim C6 asserts of `compute_and_output_dist`: detect a
mismatch between the number of sharding contexts and the number of
strategies and fail with an assertion error (modelled as `none`), producing
a result only when the counts agree. -/
def computeAndOutputDistChecked (Row : Type) [Inhabited Row]
    (m : QECModule Row) (s : QECState) (ctxs : List ShardingContext)
    (input : List (List KJT)) : Option (List (String × JaggedTensor Row)) :=
  if ctxs.length = m.strategies.length then
    some (computeAndOutputDistCall Row m s ctxs input)
  else none

/-! ## Strict `torch.split` error semantics

`splitByLengths` gives `torch.split` take/drop semantics; the real
`split_with_sizes` raises a RuntimeError when the requested sizes do not sum
exactly to the tensor's length along the split dimension.  The `Strict`
variants below re-run the reconstruction pipeline with that error modelled
as `none`, so that a run returning `some` is one the real program completes
and a run returning `none` is one where the real program raises. -/

/-- `torch.split(xs, ns, dim=0)` with its error semantics: `none` models the
RuntimeError `split_with_sizes` raises when the sizes do not sum exactly to
the tensor's length. -/
def splitWithSizes (ns : List Nat) (xs : List α) : Option (List (List α)) :=
  if ns.sum = xs.length then some (splitByLengths ns xs) else none

/-- One iteration of the outer loop of `_construct_jagged_tensors_tw` under
strict `torch.split` semantics: `none` when the split of src line 114 (or,
with `need_indices`, src line 118) raises. -/
def twPerDestStrict (Row : Type) (emb_i : List Row) (f_i : KJT)
    (needIndices : Bool) : Option (List (String × JaggedTensor Row)) :=
  let lengthsTuple := viewRows f_i.stride f_i.lengths
  let lengthPerKey := f_i.lengthPerKey
  match splitWithSizes lengthPerKey emb_i with
  | none => none
  | some embeddingsList =>
    if needIndices then
      match splitWithSizes lengthPerKey f_i.values with
      | none => none
      | some valuesList =>
        some ((List.range f_i.keys.length).map (fun j =>
          (f_i.keys.getD j "",
            { values := embeddingsList.getD j []
              lengths := lengthsTuple.getD j []
              weights := some (valuesList.getD j []) })))
    else
      some ((List.range f_i.keys.length).map (fun j =>
        (f_i.keys.getD j "",
          { values := embeddingsList.getD j []
            lengths := lengthsTuple.getD j []
            weights := none })))

/-- `_construct_jagged_tensors_tw` under strict `torch.split` semantics. -/
def constructJaggedTensorsTwStrict (Row : Type) (embeddings : List (List Row))
    (features : List KJT) (needIndices : Bool) :
    Option (List (String × JaggedTensor Row)) :=
  ((List.range embeddings.length).mapM (fun i =>
    twPerDestStrict Row (embeddings.getD i []) (features.getD i default)
      needIndices)).map List.flatten

/-- `_construct_jagged_tensors_rw` under strict `torch.split` semantics:
`none` when the split of src lines 145-147 (or, with `need_indices`, src
lines 155-158) raises. -/
def constructJaggedTensorsRwStrict (Row : Type) [Inhabited Row]
    (embeddings : List (List Row)) (featuresBeforeInputDist : KJT)
    (needIndices : Bool) (unbucketizeTensor : List Nat) :
    Option (List (String × JaggedTensor Row)) :=
  let unbucketizedEmbs := indexSelect (embeddings.flatten) unbucketizeTensor
  match splitWithSizes featuresBeforeInputDist.lengthPerKey
      unbucketizedEmbs with
  | none => none
  | some embsSplitPerKey =>
    let lengthsList :=
      viewRows featuresBeforeInputDist.stride featuresBeforeInputDist.lengths
    if needIndices then
      match splitWithSizes featuresBeforeInputDist.lengthPerKey
          featuresBeforeInputDist.values with
      | none => none
      | some valuesList =>
        some ((List.range featuresBeforeInputDist.keys.length).map (fun i =>
          (featuresBeforeInputDist.keys.getD i "",
            { values := embsSplitPerKey.getD i []
              lengths := lengthsList.getD i []
              weights := some (valuesList.getD i []) })))
    else
      some ((List.range featuresBeforeInputDist.keys.length).map (fun i =>
        (featuresBeforeInputDist.keys.getD i "",
          { values := embsSplitPerKey.getD i []
            lengths := lengthsList.getD i []
            weights := none })))

/-- `_construct_jagged_tensors` under strict `torch.split` semantics. -/
def constructJaggedTensorsStrict (Row : Type) [Inhabited Row]
    (embeddings : List (List Row)) (features : List KJT)
    (featuresBeforeInputDist : KJT) (needIndices : Bool)
    (unbucketizeTensor : Option (List Nat)) :
    Option (List (String × JaggedTensor Row)) :=
  match unbucketizeTensor with
  | some t =>
      constructJaggedTensorsRwStrict Row embeddings featuresBeforeInputDist
        needIndices t
  | none => constructJaggedTensorsTwStrict Row embeddings features needIndices

/-- `output_jt_dict` under strict `torch.split` semantics: the loop raises as
soon as one sharding's reconstruction raises. -/
def outputJtDictStrict (Row : Type) [Inhabited Row]
    (embPerSharding : List (List (List Row)))
    (featuresPerSharding : List (List KJT))
    (needIndices : Bool)
    (featuresBeforeInputDistPerSharding : List KJT)
    (unbucketizeTensorPerSharding : List (Option (List Nat))) :
    Option (List (String × JaggedTensor Row)) :=
  ((embPerSharding.zip (featuresPerSharding.zip
      (featuresBeforeInputDistPerSharding.zip
        unbucketizeTensorPerSharding))).mapM
    (fun p =>
      constructJaggedTensorsStrict Row p.1 p.2.1 p.2.2.1 needIndices
        p.2.2.2)).map List.flatten

/-- `output_dist` under strict `torch.split` semantics. -/
def outputDistCallStrict (Row : Type) [Inhabited Row] (m : QECModule Row)
    (s : QECState) (output : List (List (List Row)))
    (ctxs : List ShardingContext) :
    Option (List (String × JaggedTensor Row)) :=
  let triples := s.outputDists.zip (output.zip ctxs)
  let embPerSharding := triples.map (fun t => strategyOutputDist Row t.1 t.2.1 t.2.2)
  let featuresPerSharding := triples.map (fun t => t.2.2.features)
  let fbidPerSharding := triples.map (fun t => t.2.2.featuresBeforeInputDist)
  let unbucketizePerSharding :=
    triples.map (fun t => t.2.2.unbucketizePermuteTensor)
  outputJtDictStrict Row embPerSharding featuresPerSharding m.needIndices
    fbidPerSharding unbucketizePerSharding

/-- `compute_and_output_dist` under strict `torch.split` semantics. -/
def computeAndOutputDistCallStrict (Row : Type) [Inhabited Row]
    (m : QECModule Row) (s : QECState) (ctxs : List ShardingContext)
    (input : List (List KJT)) : Option (List (String × JaggedTensor Row)) :=
  outputDistCallStrict Row m s (computeCall Row m input) ctxs

/-- `forward` under strict `torch.split` semantics: `none` in the second
component models the forward pass raising instead of returning a dict. -/
def forwardCallStrict (Row : Type) [Inhabited Row] (m : QECModule Row)
    (s : QECState) (features : KJT) :
    QECState × Option (List (String × JaggedTensor Row)) :=
  let r := inputDistCall Row m s features
  (r.1, computeAndOutputDistCallStrict Row m r.1 r.2.1 r.2.2)

/-- A pure table-wise assignment: one strategy covering both features, so a
run stays entirely on the table-wise reconstruction path. -/
def twOnlyModule : QECModule Nat :=
  { strategies := [testTwStrategy]
    needIndices := false
    emb := testEmb }

def c6State : QECState :=
  (inputDistCall Nat twOnlyModule initialQECState testBatch).1

def c6Ctxs : List ShardingContext :=
  (inputDistCall Nat twOnlyModule initialQECState testBatch).2.1

def c6Input : List (List KJT) :=
  (inputDistCall Nat twOnlyModule initialQECState testBatch).2.2

def c6CtxsExtra : List ShardingContext := c6Ctxs ++ [default]

/-! ## Theorems -/

@[simp] theorem splitByLengths_nil (xs : List α) : splitByLengths [] xs = [] := rfl

@[simp] theorem splitByLengths_cons (n : Nat) (ns : List Nat) (xs : List α) :
    splitByLengths (n :: ns) xs = xs.take n :: splitByLengths ns (xs.drop n) := rfl

@[simp] theorem splitByLengths_length (ns : List Nat) (xs : List α) :
    (splitByLengths ns xs).length = ns.length := by
  induction ns generalizing xs with
  | nil => rfl
  | cons n ns ih => simp [ih]

/-- Splitting the concatenation of chunks by the chunks' lengths recovers the
chunks. -/
theorem splitByLengths_flatten (xss : List (List α)) :
    splitByLengths (xss.map List.length) xss.flatten = xss := by
  induction xss with
  | nil => rfl
  | cons xs xss ih =>
      simp [List.flatten, List.take_append, List.drop_append, ih]

/-- The chunks of `splitByLengths` concatenate back to a prefix of the input:
when the sizes sum to the input length they concatenate to the input. -/
theorem splitByLengths_flatten_of_sum_eq (ns : List Nat) (xs : List α)
    (h : ns.sum = xs.length) : (splitByLengths ns xs).flatten = xs := by
  induction ns generalizing xs with
  | nil => simp at h; simp [List.eq_nil_of_length_eq_zero h.symm]
  | cons n ns ih =>
      simp only [splitByLengths_cons, List.flatten_cons]
      rw [ih _ (by simp only [List.length_drop]; simp only [List.sum_cons] at h; omega),
        List.take_append_drop]

@[simp] theorem indexSelect_length [Inhabited α] (xs : List α) (idx : List Nat) :
    (indexSelect xs idx).length = idx.length := by simp [indexSelect]

/-- Reshaping a concatenation of rows that all have length `stride > 0`
recovers the rows. -/
theorem viewRows_flatten (stride : Nat) (hs : 0 < stride) (xss : List (List α))
    (h : ∀ xs ∈ xss, xs.length = stride) :
    viewRows stride xss.flatten = xss := by
  have hlen : (xss.flatten).length = xss.length * stride := by
    induction xss with
    | nil => simp
    | cons xs xss ih =>
        have h1 := h xs (by simp)
        have h2 := ih (fun a ha => h a (by simp [ha]))
        simp only [List.flatten_cons, List.length_append, List.length_cons, h1, h2]
        ring
  have hm : xss.map List.length = List.replicate xss.length stride := by
    have hall : ∀ b ∈ xss.map List.length, b = stride := by
      intro b hb
      obtain ⟨xs, hxs, rfl⟩ := List.mem_map.mp hb
      exact h xs hxs
    have := List.eq_replicate_length.mpr hall
    simpa using this
  have hdiv : xss.length * stride / stride = xss.length := by
    rw [Nat.mul_div_assoc _ (dvd_refl stride), Nat.div_self hs, Nat.mul_one]
  rw [viewRows, hlen, hdiv, ← hm, splitByLengths_flatten]

theorem dictLookup_append (d₁ d₂ : List (String × β)) (key : String) :
    dictLookup (d₁ ++ d₂) key =
      ((dictLookup d₂ key).rec (dictLookup d₁ key) (fun b => some b)) := by
  unfold dictLookup
  rw [List.reverse_append, List.find?_append]
  cases h : List.find? (fun p => p.1 = key) d₂.reverse <;> simp [h]

/-! ## Generic list lemmas -/

theorem getD_eq_getElem_of_lt (l : List α) (d : α) (h : n < l.length) :
    l.getD n d = l.get ⟨n, h⟩ := by
  simp [List.getD_eq_getElem?_getD, List.getElem?_eq_getElem h]

theorem getD_map_of_lt (f : α → β) (l : List α) (d : β) (d₂ : α)
    (h : n < l.length) : (l.map f).getD n d = f (l.getD n d₂) := by
  rw [getD_eq_getElem_of_lt _ _ (by simpa using h), getD_eq_getElem_of_lt _ _ h]
  simp

theorem getD_range_of_lt (d : Nat) (h : n < m) : (List.range m).getD n d = n := by
  rw [getD_eq_getElem_of_lt _ _ (by simpa using h)]
  simp

/-- Two lists are equal when they have the same length and agree at every
`getD` below that length. -/
theorem list_ext_getD (l₁ l₂ : List α) (d : α) (hlen : l₁.length = l₂.length)
    (h : ∀ i, i < l₁.length → l₁.getD i d = l₂.getD i d) : l₁ = l₂ := by
  apply List.ext_getElem hlen
  intro i h₁ h₂
  have := h i h₁
  rwa [getD_eq_getElem_of_lt _ _ h₁, getD_eq_getElem_of_lt _ _ h₂] at this

theorem map_getD_range (l : List α) (d : α) :
    (List.range l.length).map (fun i => l.getD i d) = l := by
  apply list_ext_getD _ _ d (by simp)
  intro i hi
  simp only [List.length_map, List.length_range] at hi
  rw [getD_map_of_lt _ _ _ 0 (by simpa using hi), getD_range_of_lt _ hi]

/-- When the sizes sum to at most the input length, every chunk of
`splitByLengths` has exactly its requested size. -/
theorem splitByLengths_map_length (ns : List Nat) (xs : List α)
    (h : ns.sum ≤ xs.length) :
    (splitByLengths ns xs).map List.length = ns := by
  induction ns generalizing xs with
  | nil => rfl
  | cons n ns ih =>
      simp only [List.sum_cons] at h
      simp only [splitByLengths_cons, List.map_cons, List.length_take]
      rw [ih _ (by simp [List.length_drop]; omega)]
      congr 1
      omega

theorem splitByLengths_map (f : α → β) (ns : List Nat) (xs : List α) :
    splitByLengths ns (xs.map f) = (splitByLengths ns xs).map (List.map f) := by
  induction ns generalizing xs with
  | nil => rfl
  | cons n ns ih =>
      simp only [splitByLengths_cons, List.map_cons, ← List.map_take, ← List.map_drop, ih]

/-- Chunk `r` of `splitByLengths` is `take size` of `drop offset`. -/
theorem splitByLengths_getD (ns : List Nat) (xs : List α) (r : Nat)
    (hr : r < ns.length) :
    (splitByLengths ns xs).getD r [] =
      ((xs.drop ((ns.take r).sum)).take (ns.getD r 0)) := by
  induction ns generalizing xs r with
  | nil => simp at hr
  | cons n ns ih =>
      cases r with
      | zero => simp
      | succ r =>
          simp only [splitByLengths_cons, List.getD_cons_succ, List.take_succ_cons,
            List.sum_cons]
          rw [ih _ r (by simpa using hr), List.drop_drop]

/-- Element `j` of chunk `r` of `splitByLengths` is element `offset + j` of
the input, where `offset` is the sum of the earlier sizes. -/
theorem splitByLengths_getD_getD (ns : List Nat) (xs : List α) (d : α)
    (r j : Nat) (hr : r < ns.length) (hj : j < ns.getD r 0)
    (hsum : ns.sum ≤ xs.length) :
    ((splitByLengths ns xs).getD r []).getD j d = xs.getD ((ns.take r).sum + j) d := by
  rw [splitByLengths_getD ns xs r hr]
  have hoff : (ns.take r).sum + ns.getD r 0 ≤ ns.sum := by
    have h1 : ns = ns.take r ++ ns.drop r := (List.take_append_drop r ns).symm
    have h2 : ns.drop r ≠ [] := by
      intro hc
      have := List.length_drop r ns
      rw [hc] at this
      simp at this
      omega
    obtain ⟨a, tl, hd⟩ := List.exists_cons_of_ne_nil h2
    have ha : ns.getD r 0 = a := by
      have : ns.getD r 0 = (ns.drop r).getD 0 0 := by
        rw [getD_eq_getElem_of_lt _ _ hr,
          getD_eq_getElem_of_lt _ _ (by rw [hd]; simp)]
        simp
      rw [this, hd]
      rfl
    calc (ns.take r).sum + ns.getD r 0 = (ns.take r).sum + a := by rw [ha]
      _ ≤ (ns.take r).sum + (a :: tl).sum := by simp
      _ = (ns.take r ++ ns.drop r).sum := by rw [hd, List.sum_append]
      _ = ns.sum := by rw [← h1]
  have hjx : (ns.take r).sum + j < xs.length := by omega
  rw [getD_eq_getElem_of_lt _ d ?hlt, getD_eq_getElem_of_lt _ d hjx]
  case hlt =>
    simp only [List.length_take, List.length_drop]
    omega
  simp [List.getElem_take, List.getElem_drop]

/-- Selecting, from a mapped list, the positions whose underlying element
satisfies `q` (in order) yields the map of the filtered list. -/
theorem filter_positions_map (xs : List α) (q : α → Bool) (g : α → β)
    (d : α) (d₂ : β) :
    ((List.range xs.length).filter (fun p => q (xs.getD p d))).map
      (fun p => (xs.map g).getD p d₂) = (xs.filter q).map g := by
  induction xs with
  | nil => simp
  | cons x xs ih =>
      have hstep :
          (List.range (x :: xs).length).filter (fun p => q ((x :: xs).getD p d))
            = (if q x then [0] else [])
              ++ ((List.range xs.length).filter
                    (fun p => q (xs.getD p d))).map Nat.succ := by
        rw [List.length_cons, List.range_succ_eq_map, List.filter_cons,
          List.filter_map]
        simp only [List.getD_cons_zero, Function.comp_def, List.getD_cons_succ]
        cases hq : q x <;> simp
      rw [hstep, List.map_append, List.map_map]
      have h2 : ((List.range xs.length).filter (fun p => q (xs.getD p d))).map
          ((fun p => ((x :: xs).map g).getD p d₂) ∘ Nat.succ)
          = ((List.range xs.length).filter (fun p => q (xs.getD p d))).map
            (fun p => (xs.map g).getD p d₂) := by
        apply List.map_congr_left
        intro p hp
        simp [Function.comp]
      rw [h2, ih, List.filter_cons]
      cases hq : q x <;> simp [hq]

theorem mem_filter_positions (xs : List α) (q : α → Bool) (d : α) (j : Nat)
    (hj : j < xs.length) (hq : q (xs.getD j d) = true) :
    j ∈ (List.range xs.length).filter (fun p => q (xs.getD p d)) := by
  simp only [List.mem_filter, List.mem_range]
  exact ⟨hj, hq⟩

theorem find?_eq_of_unique (l : List α) (p : α → Bool) (a : α) (ha : a ∈ l)
    (hp : p a = true) (huniq : ∀ b ∈ l, p b = true → b = a) :
    l.find? p = some a := by
  induction l with
  | nil => simp at ha
  | cons x l ih =>
      by_cases hx : p x
      · have hxa : x = a := huniq x (by simp) hx
        rw [List.find?_cons_of_pos _ hx, hxa]
      · have hal : a ∈ l := by
          rcases List.mem_cons.mp ha with h | h
          · exfalso
            rw [h] at hp
            exact hx hp
          · exact h
        rw [List.find?_cons_of_neg _ (by simpa using hx)]
        exact ih hal (fun b hb hpb => huniq b (by simp [hb]) hpb)

/-- `dictLookup` on a range-built binding list whose key at a position is
unique returns the value built at that position. -/
theorem dictLookup_map_range (n : Nat) (keyOf : Nat → String) (val : Nat → β)
    (i : Nat) (hi : i < n) (hinj : ∀ a, a < n → keyOf a = keyOf i → a = i) :
    dictLookup ((List.range n).map (fun j => (keyOf j, val j))) (keyOf i)
      = some (val i) := by
  unfold dictLookup
  rw [← List.map_reverse, List.find?_map]
  have hfind : (List.range n).reverse.find?
      ((fun p : String × β => p.1 = keyOf i) ∘ (fun j => (keyOf j, val j)))
      = some i := by
    apply find?_eq_of_unique
    · simp [List.mem_reverse, List.mem_range, hi]
    · simp
    · intro b hb hpb
      simp only [List.mem_reverse, List.mem_range] at hb
      simp only [Function.comp_def, decide_eq_true_eq] at hpb
      exact hinj b hb hpb
  rw [hfind]
  rfl

theorem dictLookup_eq_none (d : List (String × β)) (key : String)
    (h : ∀ p ∈ d, p.1 ≠ key) : dictLookup d key = none := by
  unfold dictLookup
  rw [List.find?_eq_none.mpr ?hnone]
  · rfl
  case hnone =>
    intro x hx
    simp [h x (List.mem_reverse.mp hx)]

/-- Looking a key up in a flattened group list reduces to the one group that
may bind it when no other group does. -/
theorem dictLookup_flatten_unique (groups : List (List (String × β)))
    (key : String) (i : Nat) (hi : i < groups.length)
    (hother : ∀ j, j < groups.length → j ≠ i →
      ∀ p ∈ groups.getD j [], p.1 ≠ key) :
    dictLookup groups.flatten key = dictLookup (groups.getD i []) key := by
  induction groups generalizing i with
  | nil => simp at hi
  | cons g groups ih =>
      rw [List.flatten_cons, dictLookup_append]
      cases i with
      | zero =>
          have hnone : dictLookup groups.flatten key = none := by
            apply dictLookup_eq_none
            intro p hp
            obtain ⟨l, hl, hpl⟩ := List.mem_flatten.mp hp
            obtain ⟨j, hjlt, hje⟩ := List.mem_iff_getElem.mp hl
            refine hother (j + 1) (by simpa using hjlt) (by simp) p ?_
            simp only [List.getD_cons_succ]
            rw [getD_eq_getElem_of_lt _ _ hjlt]
            simpa [List.get_eq_getElem, hje] using hpl
          rw [hnone]
          rfl
      | succ i =>
          have hih := ih i (by simpa using hi)
            (fun j hj hne => hother (j + 1) (by simpa using hj) (by simpa using hne))
          rw [hih, List.getD_cons_succ]
          cases hr : dictLookup (groups.getD i []) key with
          | some b => rfl
          | none =>
              have hg : dictLookup g key = none := by
                apply dictLookup_eq_none
                intro p hp
                exact hother 0 (by simp) (by simp) p (by simpa using hp)
              simpa using hg

theorem map_getD_range_comp (l : List α) (d : α) (f : α → β) :
    (List.range l.length).map (fun i => f (l.getD i d)) = l.map f := by
  rw [show (fun i => f (l.getD i d)) = f ∘ (fun i => l.getD i d) from rfl,
    ← List.map_map, map_getD_range]

/-! ## Structural lemmas about well-formed collections -/

theorem KJT.lengths_flatten_eq (k : KJT) (hw : k.wf) (hs : 0 < k.stride) :
    k.lengthsRows.flatten = k.lengths := by
  unfold KJT.lengthsRows viewRows
  apply splitByLengths_flatten_of_sum_eq
  simp [List.sum_replicate, smul_eq_mul, hw.1,
    Nat.mul_div_assoc _ (dvd_refl k.stride), Nat.div_self hs]

theorem KJT.lengthsRows_map_length (k : KJT) (hw : k.wf) (hs : 0 < k.stride) :
    k.lengthsRows.map List.length = List.replicate k.keys.length k.stride := by
  unfold KJT.lengthsRows viewRows
  rw [splitByLengths_map_length _ _ (by
    simp [List.sum_replicate, smul_eq_mul, Nat.div_mul_le_self])]
  rw [hw.1, Nat.mul_div_assoc _ (dvd_refl k.stride), Nat.div_self hs, Nat.mul_one]

theorem KJT.lengthsRows_length (k : KJT) (hw : k.wf) (hs : 0 < k.stride) :
    k.lengthsRows.length = k.keys.length := by
  have := congrArg List.length (k.lengthsRows_map_length hw hs)
  simpa using this

theorem KJT.lengthsRows_mem_length (k : KJT) (hw : k.wf) (hs : 0 < k.stride) :
    ∀ row ∈ k.lengthsRows, row.length = k.stride := by
  intro row hrow
  have : row.length ∈ k.lengthsRows.map List.length := List.mem_map_of_mem _ hrow
  rw [k.lengthsRows_map_length hw hs] at this
  exact List.eq_of_mem_replicate this

theorem KJT.lengthsRows_getD_length (k : KJT) (hw : k.wf) (hs : 0 < k.stride)
    (i : Nat) (hi : i < k.keys.length) :
    (k.lengthsRows.getD i []).length = k.stride := by
  apply k.lengthsRows_mem_length hw hs
  rw [getD_eq_getElem_of_lt _ _ (by rw [k.lengthsRows_length hw hs]; exact hi)]
  apply List.get_mem

theorem KJT.lengthPerKey_length (k : KJT) (hw : k.wf) (hs : 0 < k.stride) :
    k.lengthPerKey.length = k.keys.length := by
  unfold KJT.lengthPerKey
  rw [List.length_map, k.lengthsRows_length hw hs]

theorem KJT.lengthPerKey_sum (k : KJT) (hw : k.wf) (hs : 0 < k.stride) :
    k.lengthPerKey.sum = k.values.length := by
  unfold KJT.lengthPerKey
  rw [← List.sum_flatten, k.lengths_flatten_eq hw hs, hw.2]

theorem KJT.valuesPerKey_length (k : KJT) (hw : k.wf) (hs : 0 < k.stride) :
    k.valuesPerKey.length = k.keys.length := by
  unfold KJT.valuesPerKey
  rw [splitByLengths_length, k.lengthPerKey_length hw hs]

theorem KJT.valuesPerKey_map_length (k : KJT) (hw : k.wf) (hs : 0 < k.stride) :
    k.valuesPerKey.map List.length = k.lengthPerKey := by
  unfold KJT.valuesPerKey
  exact splitByLengths_map_length _ _ (by rw [k.lengthPerKey_sum hw hs])

theorem KJT.valuesPerKey_flatten (k : KJT) (hw : k.wf) (hs : 0 < k.stride) :
    k.valuesPerKey.flatten = k.values := by
  unfold KJT.valuesPerKey
  exact splitByLengths_flatten_of_sum_eq _ _ (k.lengthPerKey_sum hw hs)

theorem KJT.valuesPerKey_getD_length (k : KJT) (hw : k.wf) (hs : 0 < k.stride)
    (i : Nat) (hi : i < k.keys.length) :
    (k.valuesPerKey.getD i []).length = k.lengthPerKey.getD i 0 := by
  rw [← getD_map_of_lt List.length _ 0 []
      (by rw [k.valuesPerKey_length hw hs]; exact hi),
    k.valuesPerKey_map_length hw hs]

/-- The per-key tagged lists underlying `taggedValues`. -/
theorem KJT.taggedValues_eq (k : KJT) :
    k.taggedValues = ((List.range k.keys.length).map (fun i =>
      (k.valuesPerKey.getD i []).map
        (fun v => (k.keys.getD i "", v)))).flatten := rfl

theorem KJT.taggedValues_map (k : KJT) (g : String × Nat → β) :
    k.taggedValues.map g = ((List.range k.keys.length).map (fun i =>
      (k.valuesPerKey.getD i []).map
        (fun v => g (k.keys.getD i "", v)))).flatten := by
  rw [KJT.taggedValues_eq, List.map_flatten, List.map_map]
  congr 1
  apply List.map_congr_left
  intro i hi
  simp [List.map_map]

theorem KJT.taggedValues_length (k : KJT) (hw : k.wf) (hs : 0 < k.stride) :
    k.taggedValues.length = k.values.length := by
  rw [KJT.taggedValues_eq, List.length_flatten, List.map_map]
  have h1 : (List.range k.keys.length).map
      (List.length ∘ fun i => (k.valuesPerKey.getD i []).map
        (fun v => (k.keys.getD i "", v)))
      = (List.range k.keys.length).map (fun i => (k.valuesPerKey.getD i []).length) := by
    apply List.map_congr_left
    intro i hi
    simp
  rw [h1, ← k.valuesPerKey_length hw hs, map_getD_range_comp,
    ← k.lengthPerKey_sum hw hs]
  unfold KJT.valuesPerKey
  rw [splitByLengths_map_length _ _ (by rw [k.lengthPerKey_sum hw hs])]

/-- Splitting a map of the tagged value sequence by `length_per_key` yields
the per-key maps. -/
theorem KJT.split_taggedValues_map (k : KJT) (hw : k.wf) (hs : 0 < k.stride)
    (g : String × Nat → β) :
    splitByLengths k.lengthPerKey (k.taggedValues.map g)
      = (List.range k.keys.length).map (fun i =>
          (k.valuesPerKey.getD i []).map (fun v => g (k.keys.getD i "", v))) := by
  rw [KJT.taggedValues_map]
  have hlen : ((List.range k.keys.length).map (fun i =>
      (k.valuesPerKey.getD i []).map
        (fun v => g (k.keys.getD i "", v)))).map List.length = k.lengthPerKey := by
    rw [List.map_map]
    have h1 : (List.range k.keys.length).map
        (List.length ∘ fun i => (k.valuesPerKey.getD i []).map
          (fun v => g (k.keys.getD i "", v)))
        = (List.range k.keys.length).map
            (fun i => (k.valuesPerKey.getD i []).length) := by
      apply List.map_congr_left
      intro i hi
      simp
    rw [h1, ← k.valuesPerKey_length hw hs, map_getD_range_comp,
      k.valuesPerKey_map_length hw hs]
  rw [← hlen, splitByLengths_flatten]

theorem KJT.mem_taggedValues (k : KJT) (t : String × Nat)
    (ht : t ∈ k.taggedValues) :
    ∃ i, i < k.keys.length ∧ t.1 = k.keys.getD i ""
      ∧ t.2 ∈ k.valuesPerKey.getD i [] := by
  rw [KJT.taggedValues_eq] at ht
  obtain ⟨l, hl, htl⟩ := List.mem_flatten.mp ht
  obtain ⟨i, hi, rfl⟩ := List.mem_map.mp hl
  obtain ⟨v, hv, rfl⟩ := List.mem_map.mp htl
  exact ⟨i, List.mem_range.mp hi, rfl, hv⟩

theorem flatten_length_uniform (s : Nat) (g : List (List α))
    (h : ∀ x ∈ g, x.length = s) : g.flatten.length = g.length * s := by
  induction g with
  | nil => simp
  | cons x g ih =>
      have h1 := h x (by simp)
      have h2 := ih (fun a ha => h a (by simp [ha]))
      simp only [List.flatten_cons, List.length_append, List.length_cons, h1, h2]
      ring

theorem mem_splitByLengths_getD (ns : List Nat) (xs : List α) (r : Nat)
    (x : α) (hx : x ∈ (splitByLengths ns xs).getD r []) : x ∈ xs := by
  by_cases hr : r < ns.length
  · rw [splitByLengths_getD ns xs r hr] at hx
    exact List.mem_of_mem_drop (List.mem_of_mem_take hx)
  · rw [List.getD_eq_default] at hx
    · simp at hx
    · simpa using hr

/-- A collection assembled from per-key lengths rows `G` (each of length
`s > 0`) and per-key value chunks `V` with matching counts is well-formed and
recovers `G` and `V` through its accessors. -/
theorem KJT.mk_rows_spec (KY : List String) (G V : List (List Nat)) (s : Nat)
    (hs : 0 < s) (hrow : ∀ x ∈ G, x.length = s)
    (hmatch : G.map List.sum = V.map List.length) (hlen : KY.length = G.length) :
    (KJT.mk KY V.flatten G.flatten s).lengthsRows = G
    ∧ (KJT.mk KY V.flatten G.flatten s).lengthPerKey = G.map List.sum
    ∧ (KJT.mk KY V.flatten G.flatten s).valuesPerKey = V
    ∧ (KJT.mk KY V.flatten G.flatten s).wf := by
  have e1 : (KJT.mk KY V.flatten G.flatten s).lengthsRows = G := by
    unfold KJT.lengthsRows
    exact viewRows_flatten s hs G hrow
  have e2 : (KJT.mk KY V.flatten G.flatten s).lengthPerKey = G.map List.sum := by
    unfold KJT.lengthPerKey
    rw [e1]
  have e3 : (KJT.mk KY V.flatten G.flatten s).valuesPerKey = V := by
    unfold KJT.valuesPerKey
    rw [e2]
    show splitByLengths (G.map List.sum) V.flatten = V
    rw [hmatch, splitByLengths_flatten]
  refine ⟨e1, e2, e3, ?_, ?_⟩
  · show G.flatten.length = KY.length * s
    rw [flatten_length_uniform s G hrow, hlen]
  · show V.flatten.length = G.flatten.sum
    rw [List.length_flatten, ← hmatch, ← List.sum_flatten]

/-- Characterization of `KeyedJaggedTensor.split` on a well-formed collection:
piece `r` carries the `r`-th group of keys, of lengths rows and of per-key
value chunks, and is itself well-formed with the same stride. -/
theorem KJT.split_spec (k : KJT) (hw : k.wf) (hs : 0 < k.stride)
    (sizes : List Nat) (hsum : sizes.sum = k.keys.length)
    (r : Nat) (hr : r < sizes.length) :
    ((k.split sizes).getD r default).stride = k.stride
    ∧ ((k.split sizes).getD r default).keys
        = (splitByLengths sizes k.keys).getD r []
    ∧ ((k.split sizes).getD r default).lengthsRows
        = (splitByLengths sizes k.lengthsRows).getD r []
    ∧ ((k.split sizes).getD r default).valuesPerKey
        = (splitByLengths sizes k.valuesPerKey).getD r []
    ∧ ((k.split sizes).getD r default).lengthPerKey
        = (splitByLengths sizes k.lengthPerKey).getD r []
    ∧ ((k.split sizes).getD r default).wf := by
  have hrowsLen : k.lengthsRows.length = k.keys.length := k.lengthsRows_length hw hs
  have hvpkLen : k.valuesPerKey.length = k.keys.length := k.valuesPerKey_length hw hs
  have hpiece : (k.split sizes).getD r default =
      { keys := (splitByLengths sizes k.keys).getD r []
        lengths := (splitByLengths (sizes.map (fun n => n * k.stride))
          k.lengths).getD r []
        values := (splitByLengths
          ((splitByLengths sizes k.lengthPerKey).map List.sum) k.values).getD r []
        stride := k.stride } := by
    unfold KJT.split
    rw [getD_map_of_lt _ _ _ 0 (by simpa using hr), getD_range_of_lt _ hr]
  -- step A: the lengths chunks are the flattened lengths-row groups
  have hA : splitByLengths (sizes.map (fun n => n * k.stride)) k.lengths
      = (splitByLengths sizes k.lengthsRows).map List.flatten := by
    have h2 : ∀ g ∈ splitByLengths sizes k.lengthsRows,
        (List.length ∘ List.flatten) g = g.length * k.stride := by
      intro g hg
      obtain ⟨j, hj, rfl⟩ := List.mem_iff_getElem.mp hg
      apply flatten_length_uniform
      intro x hx
      apply k.lengthsRows_mem_length hw hs
      apply mem_splitByLengths_getD sizes k.lengthsRows j
      rwa [getD_eq_getElem_of_lt _ _ hj]
    have h1 : ((splitByLengths sizes k.lengthsRows).map List.flatten).map List.length
        = sizes.map (fun n => n * k.stride) := by
      rw [List.map_map]
      calc (splitByLengths sizes k.lengthsRows).map (List.length ∘ List.flatten)
          = (splitByLengths sizes k.lengthsRows).map (fun g => g.length * k.stride) :=
            List.map_congr_left h2
        _ = ((splitByLengths sizes k.lengthsRows).map List.length).map
              (fun n => n * k.stride) := by rw [List.map_map]; rfl
        _ = sizes.map (fun n => n * k.stride) := by
              rw [splitByLengths_map_length sizes k.lengthsRows (by omega)]
    have h3 : ((splitByLengths sizes k.lengthsRows).map List.flatten).flatten
        = k.lengths := by
      rw [← List.flatten_flatten,
        splitByLengths_flatten_of_sum_eq sizes k.lengthsRows (by omega),
        k.lengths_flatten_eq hw hs]
    rw [← h1, ← h3, splitByLengths_flatten]
  -- step B: the value chunks are the flattened per-key-value groups
  have hlpk : k.lengthPerKey = k.valuesPerKey.map List.length :=
    (k.valuesPerKey_map_length hw hs).symm
  have hB : splitByLengths ((splitByLengths sizes k.lengthPerKey).map List.sum)
        k.values
      = (splitByLengths sizes k.valuesPerKey).map List.flatten := by
    have h1 : (splitByLengths sizes k.lengthPerKey).map List.sum
        = ((splitByLengths sizes k.valuesPerKey).map List.flatten).map List.length := by
      rw [hlpk, splitByLengths_map, List.map_map, List.map_map]
      apply List.map_congr_left
      intro g hg
      simp [List.length_flatten]
    have h2 : ((splitByLengths sizes k.valuesPerKey).map List.flatten).flatten
        = k.values := by
      rw [← List.flatten_flatten,
        splitByLengths_flatten_of_sum_eq sizes k.valuesPerKey (by omega),
        k.valuesPerKey_flatten hw hs]
    rw [h1, ← h2, splitByLengths_flatten]
  -- assemble
  have hrowsGrpLt : r < (splitByLengths sizes k.lengthsRows).length := by
    simpa using hr
  have hvpkGrpLt : r < (splitByLengths sizes k.valuesPerKey).length := by
    simpa using hr
  have hrowmem : ∀ x ∈ (splitByLengths sizes k.lengthsRows).getD r [],
      x.length = k.stride := by
    intro x hx
    exact k.lengthsRows_mem_length hw hs x (mem_splitByLengths_getD _ _ _ _ hx)
  have hgrpLenRows : ((splitByLengths sizes k.lengthsRows).getD r []).length
      = sizes.getD r 0 := by
    rw [← getD_map_of_lt List.length _ 0 [] hrowsGrpLt,
      splitByLengths_map_length sizes k.lengthsRows (by omega)]
  have hgrpLenKeys : ((splitByLengths sizes k.keys).getD r []).length
      = sizes.getD r 0 := by
    rw [← getD_map_of_lt List.length _ 0 [] (by simpa using hr),
      splitByLengths_map_length sizes k.keys (by omega)]
  have hgrpMapEq : (splitByLengths sizes k.lengthsRows).map (List.map List.sum)
      = (splitByLengths sizes k.valuesPerKey).map (List.map List.length) := by
    have h5 : k.lengthsRows.map List.sum = k.valuesPerKey.map List.length := by
      rw [show k.lengthsRows.map List.sum = k.lengthPerKey from rfl, hlpk]
    rw [← splitByLengths_map, ← splitByLengths_map, h5]
  have hgrpSum : ((splitByLengths sizes k.lengthsRows).getD r []).map List.sum
      = ((splitByLengths sizes k.valuesPerKey).getD r []).map List.length := by
    calc ((splitByLengths sizes k.lengthsRows).getD r []).map List.sum
        = ((splitByLengths sizes k.lengthsRows).map (List.map List.sum)).getD r [] :=
          (getD_map_of_lt _ _ _ [] hrowsGrpLt).symm
      _ = ((splitByLengths sizes k.valuesPerKey).map (List.map List.length)).getD r [] := by
          rw [hgrpMapEq]
      _ = ((splitByLengths sizes k.valuesPerKey).getD r []).map List.length :=
          getD_map_of_lt _ _ _ [] hvpkGrpLt
  have hlpkGrp : (splitByLengths sizes k.lengthPerKey).getD r []
      = ((splitByLengths sizes k.valuesPerKey).getD r []).map List.length := by
    rw [hlpk, splitByLengths_map, getD_map_of_lt _ _ _ [] hvpkGrpLt]
  obtain ⟨e1, e2, e3, e4⟩ := KJT.mk_rows_spec
    ((splitByLengths sizes k.keys).getD r [])
    ((splitByLengths sizes k.lengthsRows).getD r [])
    ((splitByLengths sizes k.valuesPerKey).getD r [])
    k.stride hs hrowmem hgrpSum (by rw [hgrpLenKeys, hgrpLenRows])
  have hfieldL : (splitByLengths (sizes.map (fun n => n * k.stride))
      k.lengths).getD r [] = ((splitByLengths sizes k.lengthsRows).getD r []).flatten := by
    rw [hA]
    exact getD_map_of_lt _ _ _ [] hrowsGrpLt
  have hfieldV : (splitByLengths
      ((splitByLengths sizes k.lengthPerKey).map List.sum) k.values).getD r []
      = ((splitByLengths sizes k.valuesPerKey).getD r []).flatten := by
    rw [hB]
    exact getD_map_of_lt _ _ _ [] hvpkGrpLt
  rw [hpiece, hfieldL, hfieldV]
  exact ⟨rfl, rfl, e1, e3, by rw [e2, hgrpSum, ← hlpkGrp], e4⟩

theorem KJT.ext_fields (a b : KJT) (h1 : a.keys = b.keys)
    (h2 : a.values = b.values) (h3 : a.lengths = b.lengths)
    (h4 : a.stride = b.stride) : a = b := by
  cases a
  cases b
  simp only at h1 h2 h3 h4
  simp [h1, h2, h3, h4]

/-- Characterization of `KeyedJaggedTensor.permute` on a well-formed
collection: keys, lengths rows and per-key value chunks are reordered
together, and the result is well-formed with the same stride. -/
theorem KJT.permute_spec (k : KJT) (hw : k.wf) (hs : 0 < k.stride)
    (order : List Nat) (hb : ∀ a ∈ order, a < k.keys.length) :
    (k.permute order).stride = k.stride
    ∧ (k.permute order).keys = order.map (fun i => k.keys.getD i "")
    ∧ (k.permute order).lengthsRows = order.map (fun i => k.lengthsRows.getD i [])
    ∧ (k.permute order).valuesPerKey = order.map (fun i => k.valuesPerKey.getD i [])
    ∧ (k.permute order).wf := by
  have hrow : ∀ x ∈ order.map (fun i => k.lengthsRows.getD i []),
      x.length = k.stride := by
    intro x hx
    obtain ⟨a, ha, rfl⟩ := List.mem_map.mp hx
    exact k.lengthsRows_getD_length hw hs a (hb a ha)
  have hmatch : (order.map (fun i => k.lengthsRows.getD i [])).map List.sum
      = (order.map (fun i => k.valuesPerKey.getD i [])).map List.length := by
    rw [List.map_map, List.map_map]
    apply List.map_congr_left
    intro a ha
    show (k.lengthsRows.getD a []).sum = (k.valuesPerKey.getD a []).length
    rw [k.valuesPerKey_getD_length hw hs a (hb a ha)]
    unfold KJT.lengthPerKey
    rw [getD_map_of_lt List.sum _ 0 []
      (by rw [k.lengthsRows_length hw hs]; exact hb a ha)]
  have hlen : (order.map (fun i => k.keys.getD i "")).length
      = (order.map (fun i => k.lengthsRows.getD i [])).length := by simp
  obtain ⟨e1, e2, e3, e4⟩ := KJT.mk_rows_spec
    (order.map (fun i => k.keys.getD i ""))
    (order.map (fun i => k.lengthsRows.getD i []))
    (order.map (fun i => k.valuesPerKey.getD i []))
    k.stride hs hrow hmatch hlen
  exact ⟨rfl, rfl, e1, e3, e4⟩

/-- Permuting with the identity permutation is the identity on a well-formed
collection. -/
theorem KJT.permute_range (k : KJT) (hw : k.wf) (hs : 0 < k.stride) :
    k.permute (List.range k.keys.length) = k := by
  apply KJT.ext_fields
  · show (List.range k.keys.length).map (fun i => k.keys.getD i "") = k.keys
    exact map_getD_range k.keys ""
  · show ((List.range k.keys.length).map
      (fun i => k.valuesPerKey.getD i [])).flatten = k.values
    rw [← k.valuesPerKey_length hw hs, map_getD_range,
      k.valuesPerKey_flatten hw hs]
  · show ((List.range k.keys.length).map
      (fun i => k.lengthsRows.getD i [])).flatten = k.lengths
    rw [← k.lengthsRows_length hw hs, map_getD_range,
      k.lengths_flatten_eq hw hs]
  · rfl

/-- Characterization of the bucketized collection for one destination rank:
same keys and stride, per-key value chunks are the rank's filtered, rebased
values, and the result is well-formed. -/
theorem rwBucketizeRank_spec (r : RwStrategy) (f : KJT) (hw : f.wf)
    (hs : 0 < f.stride) (rank : Nat) :
    (rwBucketizeRank r f rank).keys = f.keys
    ∧ (rwBucketizeRank r f rank).stride = f.stride
    ∧ (rwBucketizeRank r f rank).valuesPerKey
        = (List.range f.keys.length).map (fun i =>
            ((f.valuesPerKey.getD i []).filter
              (fun v => rwBucketOf r (f.keys.getD i "") v = rank)).map
              (fun v => v - rank * r.blockOf (f.keys.getD i "")))
    ∧ (rwBucketizeRank r f rank).wf := by
  have hrow : ∀ x ∈ (List.range f.keys.length).map (fun i =>
      (splitByLengths (f.lengthsRows.getD i []) (f.valuesPerKey.getD i [])).map
        (fun c =>
          (c.filter (fun v => rwBucketOf r (f.keys.getD i "") v = rank)).length)),
      x.length = f.stride := by
    intro x hx
    obtain ⟨i, hi, rfl⟩ := List.mem_map.mp hx
    rw [List.length_map, splitByLengths_length]
    exact f.lengthsRows_getD_length hw hs i (List.mem_range.mp hi)
  have hvpklen : ∀ i, i < f.keys.length →
      (f.lengthsRows.getD i []).sum = (f.valuesPerKey.getD i []).length := by
    intro i hi
    rw [f.valuesPerKey_getD_length hw hs i hi]
    unfold KJT.lengthPerKey
    rw [getD_map_of_lt List.sum _ 0 []
      (by rw [f.lengthsRows_length hw hs]; exact hi)]
  have hmatch : ((List.range f.keys.length).map (fun i =>
      (splitByLengths (f.lengthsRows.getD i []) (f.valuesPerKey.getD i [])).map
        (fun c =>
          (c.filter (fun v => rwBucketOf r (f.keys.getD i "") v = rank)).length))).map
        List.sum
      = ((List.range f.keys.length).map (fun i =>
          ((f.valuesPerKey.getD i []).filter
            (fun v => rwBucketOf r (f.keys.getD i "") v = rank)).map
            (fun v => v - rank * r.blockOf (f.keys.getD i "")))).map List.length := by
    rw [List.map_map, List.map_map]
    apply List.map_congr_left
    intro i hi
    have hi := List.mem_range.mp hi
    show ((splitByLengths (f.lengthsRows.getD i []) (f.valuesPerKey.getD i [])).map
        (fun c =>
          (c.filter (fun v => rwBucketOf r (f.keys.getD i "") v = rank)).length)).sum
      = (((f.valuesPerKey.getD i []).filter
          (fun v => rwBucketOf r (f.keys.getD i "") v = rank)).map
          (fun v => v - rank * r.blockOf (f.keys.getD i ""))).length
    rw [List.length_map]
    rw [show (fun c : List Nat =>
        (c.filter (fun v => rwBucketOf r (f.keys.getD i "") v = rank)).length)
      = List.length ∘ (List.filter (fun v => rwBucketOf r (f.keys.getD i "") v = rank))
      from rfl]
    rw [← List.map_map, ← List.length_flatten, ← List.filter_flatten,
      splitByLengths_flatten_of_sum_eq _ _ (hvpklen i hi)]
  have hlen : f.keys.length
      = ((List.range f.keys.length).map (fun i =>
          (splitByLengths (f.lengthsRows.getD i []) (f.valuesPerKey.getD i [])).map
            (fun c => (c.filter
              (fun v => rwBucketOf r (f.keys.getD i "") v = rank)).length))).length := by
    simp
  obtain ⟨e1, e2, e3, e4⟩ := KJT.mk_rows_spec f.keys _ _ f.stride hs hrow hmatch hlen
  exact ⟨rfl, rfl, e3, e4⟩

theorem rwBucketizeRank_taggedValues (r : RwStrategy) (f : KJT) (hw : f.wf)
    (hs : 0 < f.stride) (rank : Nat) :
    (rwBucketizeRank r f rank).taggedValues
      = ((List.range f.keys.length).map (fun i =>
          ((f.valuesPerKey.getD i []).filter
            (fun v => rwBucketOf r (f.keys.getD i "") v = rank)).map
            (fun v => (f.keys.getD i "", v - rank * r.blockOf (f.keys.getD i ""))))).flatten := by
  obtain ⟨e1, e2, e3, e4⟩ := rwBucketizeRank_spec r f hw hs rank
  rw [KJT.taggedValues_eq, e1, e3]
  congr 1
  apply List.map_congr_left
  intro i hi
  have hi := List.mem_range.mp hi
  rw [getD_map_of_lt _ _ _ 0 (by simpa using hi), getD_range_of_lt _ hi,
    List.map_map]
  rfl

/-- The raw tensor of the row-wise Lookup on destination `rank` is, in order,
the embedding row of every original tagged value whose bucket is `rank`. -/
theorem rwLookupTensor_bucketize (Row : Type) (emb : String → Nat → Row)
    (r : RwStrategy) (f : KJT) (hw : f.wf) (hs : 0 < f.stride) (rank : Nat) :
    rwLookupTensor Row emb r rank (rwBucketizeRank r f rank)
      = (f.taggedValues.filter
          (fun t => rwBucketOf r t.1 t.2 = rank)).map (fun t => emb t.1 t.2) := by
  unfold rwLookupTensor
  rw [rwBucketizeRank_taggedValues r f hw hs rank, List.map_flatten, List.map_map]
  rw [KJT.taggedValues_eq, List.filter_flatten, List.map_flatten, List.map_map,
    List.map_map]
  congr 1
  apply List.map_congr_left
  intro i hi
  show (((f.valuesPerKey.getD i []).filter
      (fun v => rwBucketOf r (f.keys.getD i "") v = rank)).map
      (fun v => (f.keys.getD i "", v - rank * r.blockOf (f.keys.getD i "")))).map
      (fun t => emb t.1 (t.2 + rank * r.blockOf t.1))
    = (((f.valuesPerKey.getD i []).map (fun v => (f.keys.getD i "", v))).filter
        (fun t => rwBucketOf r t.1 t.2 = rank)).map (fun t => emb t.1 t.2)
  rw [List.filter_map, List.map_map, List.map_map]
  apply List.map_congr_left
  intro v hv
  have hq := (List.mem_filter.mp hv).2
  show emb (f.keys.getD i "")
      ((v - rank * r.blockOf (f.keys.getD i "")) + rank * r.blockOf (f.keys.getD i ""))
    = emb (f.keys.getD i "") v
  congr 1
  have hb : rwBucketOf r (f.keys.getD i "") v = rank := by
    simpa using hq
  have hle : rank * r.blockOf (f.keys.getD i "") ≤ v := by
    rw [← hb]
    unfold rwBucketOf
    exact Nat.div_mul_le_self v _
  omega

/-- The concatenation of all destinations' row-wise lookup tensors lists the
reference embedding rows in bucket order. -/
theorem rw_concat_lookup (Row : Type) [Inhabited Row] (emb : String → Nat → Row)
    (r : RwStrategy) (f : KJT) (hw : f.wf) (hs : 0 < f.stride) :
    ((List.range r.worldSize).map (fun rank =>
        rwLookupTensor Row emb r rank (rwBucketizeRank r f rank))).flatten
      = (rwBucketOrder r f).map
          (fun p => (lookupTensor Row emb f).getD p default) := by
  unfold rwBucketOrder
  rw [List.map_flatten, List.map_map]
  congr 1
  apply List.map_congr_left
  intro rank hrank
  show rwLookupTensor Row emb r rank (rwBucketizeRank r f rank)
    = ((List.range f.taggedValues.length).filter (fun p =>
        rwBucketOf r (f.taggedValues.getD p ("", 0)).1
          (f.taggedValues.getD p ("", 0)).2 = rank)).map
        (fun p => (lookupTensor Row emb f).getD p default)
  rw [rwLookupTensor_bucketize Row emb r f hw hs rank]
  unfold lookupTensor
  exact (filter_positions_map f.taggedValues
    (fun t => rwBucketOf r t.1 t.2 = rank) (fun t => emb t.1 t.2)
    ("", 0) default).symm

theorem mem_rwBucketOrder (r : RwStrategy) (f : KJT) (j : Nat)
    (hj : j < f.taggedValues.length)
    (hb : rwBucketOf r (f.taggedValues.getD j ("", 0)).1
        (f.taggedValues.getD j ("", 0)).2 < r.worldSize) :
    j ∈ rwBucketOrder r f := by
  unfold rwBucketOrder
  rw [List.mem_flatten]
  refine ⟨(List.range f.taggedValues.length).filter (fun p =>
    rwBucketOf r (f.taggedValues.getD p ("", 0)).1
      (f.taggedValues.getD p ("", 0)).2
      = rwBucketOf r (f.taggedValues.getD j ("", 0)).1
          (f.taggedValues.getD j ("", 0)).2), ?_, ?_⟩
  · apply List.mem_map_of_mem
    rw [List.mem_range]
    exact hb
  · rw [List.mem_filter, List.mem_range]
    exact ⟨hj, by simp⟩

/-- `index_select` with the unbucketize permutation restores the reference
embedding rows in original order. -/
theorem rwUnbucketize_indexSelect (Row : Type) [Inhabited Row]
    (emb : String → Nat → Row) (r : RwStrategy) (f : KJT)
    (hw : f.wf) (hs : 0 < f.stride)
    (hbound : ∀ t ∈ f.taggedValues, rwBucketOf r t.1 t.2 < r.worldSize) :
    indexSelect (((List.range r.worldSize).map (fun rank =>
        rwLookupTensor Row emb r rank (rwBucketizeRank r f rank))).flatten)
      (rwUnbucketize r f)
      = lookupTensor Row emb f := by
  rw [rw_concat_lookup Row emb r f hw hs]
  unfold indexSelect rwUnbucketize
  have hlenR : (lookupTensor Row emb f).length = f.taggedValues.length := by
    unfold lookupTensor
    simp
  apply list_ext_getD _ _ default
  · simp [hlenR]
  · intro j hj
    simp only [List.length_map, List.length_range] at hj
    rw [getD_map_of_lt _ _ _ 0 (by simpa using hj)]
    have hinner : ((List.range f.taggedValues.length).map
        (fun j => (rwBucketOrder r f).indexOf j)).getD j 0
        = (rwBucketOrder r f).indexOf j := by
      rw [getD_map_of_lt _ _ _ 0 (by simpa using hj), getD_range_of_lt _ hj]
    rw [hinner]
    have hmem : j ∈ rwBucketOrder r f := by
      apply mem_rwBucketOrder r f j hj
      apply hbound
      rw [getD_eq_getElem_of_lt _ _ hj]
      apply List.get_mem
    have hidx : (rwBucketOrder r f).indexOf j < (rwBucketOrder r f).length :=
      List.indexOf_lt_length.mpr hmem
    rw [getD_map_of_lt _ _ _ 0 hidx]
    congr 1
    rw [getD_eq_getElem_of_lt _ _ hidx, List.get_eq_getElem]
    exact List.getElem_indexOf hidx

/-- After row-wise distribution to every destination, per-destination lookup
and the unbucketize reconstruction, `_construct_jagged_tensors_rw` returns
exactly the reference forward results. -/
theorem constructRw_eq_reference (Row : Type) [Inhabited Row]
    (emb : String → Nat → Row) (needIndices : Bool) (r : RwStrategy) (f : KJT)
    (hw : f.wf) (hs : 0 < f.stride)
    (hbound : ∀ t ∈ f.taggedValues, rwBucketOf r t.1 t.2 < r.worldSize) :
    constructJaggedTensorsRw Row ((List.range r.worldSize).map (fun rank =>
        rwLookupTensor Row emb r rank (rwBucketizeRank r f rank)))
      f needIndices (rwUnbucketize r f)
      = referenceForward Row emb needIndices f := by
  unfold constructJaggedTensorsRw referenceForward
  rw [rwUnbucketize_indexSelect Row emb r f hw hs hbound,
    show lookupTensor Row emb f
      = f.taggedValues.map (fun t => emb t.1 t.2) from rfl]
  simp only []
  rw [KJT.split_taggedValues_map f hw hs]
  apply List.map_congr_left
  intro i hi
  have hi := List.mem_range.mp hi
  have hv : ((List.range f.keys.length).map (fun i =>
      (f.valuesPerKey.getD i []).map
        (fun v => emb (f.keys.getD i "", v).1 (f.keys.getD i "", v).2))).getD i []
      = (f.valuesPerKey.getD i []).map (emb (f.keys.getD i "")) := by
    rw [getD_map_of_lt _ _ _ 0 (by simpa using hi), getD_range_of_lt _ hi]
  rw [hv]
  rfl

theorem take_sum_add_getD_le (ns : List Nat) (r : Nat) (hr : r < ns.length) :
    (ns.take r).sum + ns.getD r 0 ≤ ns.sum := by
  induction ns generalizing r with
  | nil => simp at hr
  | cons n ns ih =>
      cases r with
      | zero => simp
      | succ r =>
          simp only [List.take_succ_cons, List.sum_cons, List.getD_cons_succ]
          have := ih r (by simpa using hr)
          omega

/-- One destination of `_construct_jagged_tensors_tw`, fed that destination's
own lookup tensor, produces exactly the reference forward results for the
destination's features. -/
theorem twPerDest_eq_reference (Row : Type) (emb : String → Nat → Row)
    (needIndices : Bool) (g : KJT) (hw : g.wf) (hs : 0 < g.stride) :
    twPerDest Row (lookupTensor Row emb g) g needIndices
      = referenceForward Row emb needIndices g := by
  unfold twPerDest referenceForward
  rw [show lookupTensor Row emb g
      = g.taggedValues.map (fun t => emb t.1 t.2) from rfl]
  simp only []
  rw [KJT.split_taggedValues_map g hw hs]
  apply List.map_congr_left
  intro i hi
  have hi := List.mem_range.mp hi
  have hv : ((List.range g.keys.length).map (fun i =>
      (g.valuesPerKey.getD i []).map
        (fun v => emb (g.keys.getD i "", v).1 (g.keys.getD i "", v).2))).getD i []
      = (g.valuesPerKey.getD i []).map (emb (g.keys.getD i "")) := by
    rw [getD_map_of_lt _ _ _ 0 (by simpa using hi), getD_range_of_lt _ hi]
  rw [hv]
  rfl

/-- The reference results of split piece `i` are the `i`-th chunk of the full
reference results. -/
theorem referenceForward_split_chunk (Row : Type) (emb : String → Nat → Row)
    (needIndices : Bool) (F : KJT) (hw : F.wf) (hs : 0 < F.stride)
    (sizes : List Nat) (hsum : sizes.sum = F.keys.length)
    (i : Nat) (hi : i < sizes.length) :
    referenceForward Row emb needIndices ((F.split sizes).getD i default)
      = (splitByLengths sizes (referenceForward Row emb needIndices F)).getD i [] := by
  obtain ⟨eS, eK, eLR, eV, eP, eW⟩ := KJT.split_spec F hw hs sizes hsum i hi
  have hreflen : (referenceForward Row emb needIndices F).length = F.keys.length := by
    unfold referenceForward
    simp
  have hgrpKeys : ((splitByLengths sizes F.keys).getD i []).length = sizes.getD i 0 := by
    rw [← getD_map_of_lt List.length _ 0 [] (by simpa using hi),
      splitByLengths_map_length sizes F.keys (by omega)]
  have hpieceK : ((F.split sizes).getD i default).keys.length = sizes.getD i 0 := by
    rw [eK, hgrpKeys]
  apply list_ext_getD _ _ ("", ⟨[], [], none⟩)
  · unfold referenceForward
    rw [List.length_map, List.length_range, hpieceK,
      ← getD_map_of_lt List.length _ 0 [] (by simpa using hi),
      splitByLengths_map_length sizes _
        (by simp only [List.length_map, List.length_range]; omega)]
  · intro j hj
    unfold referenceForward at hj ⊢
    rw [List.length_map, List.length_range, hpieceK] at hj
    rw [getD_map_of_lt _ _ _ 0 (by rw [List.length_range, hpieceK]; exact hj),
      getD_range_of_lt _ (by rw [hpieceK]; exact hj)]
    rw [splitByLengths_getD_getD sizes _ _ i j hi hj
        (by simp only [List.length_map, List.length_range]; omega),
      getD_map_of_lt _ _ _ 0 (by
        rw [List.length_range]
        have := take_sum_add_getD_le sizes i hi
        omega),
      getD_range_of_lt _ (by
        have := take_sum_add_getD_le sizes i hi
        omega)]
    rw [eK, eLR, eV]
    rw [splitByLengths_getD_getD sizes F.keys "" i j hi hj (by omega),
      splitByLengths_getD_getD sizes F.lengthsRows [] i j hi hj (by
        rw [F.lengthsRows_length hw hs]; omega),
      splitByLengths_getD_getD sizes F.valuesPerKey [] i j hi hj (by
        rw [F.valuesPerKey_length hw hs]; omega)]

/-- Table-wise end-to-end reconstruction: splitting a collection into
per-destination pieces, looking each piece up on its destination and
rebuilding with `_construct_jagged_tensors_tw` yields exactly the reference
forward results, destination by destination. -/
theorem constructTw_split_eq_reference (Row : Type) (emb : String → Nat → Row)
    (needIndices : Bool) (F : KJT) (sizes : List Nat)
    (hw : F.wf) (hs : 0 < F.stride) (hsum : sizes.sum = F.keys.length) :
    constructJaggedTensorsTw Row
      ((F.split sizes).map (fun g => lookupTensor Row emb g))
      (F.split sizes) needIndices
      = referenceForward Row emb needIndices F := by
  unfold constructJaggedTensorsTw
  rw [← splitByLengths_flatten_of_sum_eq sizes
    (referenceForward Row emb needIndices F)
    (by unfold referenceForward; simp [hsum])]
  congr 1
  apply list_ext_getD _ _ []
  · simp [KJT.split]
  · intro i hi
    have hi2 : i < sizes.length := by
      simpa [KJT.split] using hi
    rw [getD_map_of_lt _ _ _ 0 (by simpa [KJT.split] using hi2),
      getD_range_of_lt _ (by simpa [KJT.split] using hi2),
      getD_map_of_lt (fun g => lookupTensor Row emb g) _ [] default
        (by simpa [KJT.split] using hi2)]
    obtain ⟨eS, eK, eLR, eV, eP, eW⟩ := KJT.split_spec F hw hs sizes hsum i hi2
    rw [twPerDest_eq_reference Row emb needIndices _ eW (by rw [eS]; exact hs)]
    exact referenceForward_split_chunk Row emb needIndices F hw hs sizes hsum i hi2

theorem nodup_getD_inj (l : List String) (hn : l.Nodup) (a b : Nat)
    (ha : a < l.length) (hb : b < l.length)
    (h : l.getD a "" = l.getD b "") : a = b := by
  rw [getD_eq_getElem_of_lt _ _ ha, getD_eq_getElem_of_lt _ _ hb,
    List.get_eq_getElem, List.get_eq_getElem] at h
  exact (List.Nodup.getElem_inj_iff hn).mp h

theorem getD_indexOf_of_mem (l : List String) (x : String) (hx : x ∈ l) :
    l.getD (l.indexOf x) "" = x := by
  have h := List.indexOf_lt_length.mpr hx
  rw [getD_eq_getElem_of_lt _ _ h, List.get_eq_getElem]
  exact List.getElem_indexOf h

theorem indexOf_getD_of_nodup (l : List String) (hn : l.Nodup) (p : Nat)
    (hp : p < l.length) : l.indexOf (l.getD p "") = p := by
  have hmem : l.getD p "" ∈ l := by
    rw [getD_eq_getElem_of_lt _ _ hp]
    apply List.get_mem
  apply nodup_getD_inj l hn _ _ (List.indexOf_lt_length.mpr hmem) hp
  exact getD_indexOf_of_mem l _ hmem

/-- Looking up key `q` of a collection with distinct keys in the reference
results returns exactly that key's reference entry. -/
theorem referenceForward_dictLookup (Row : Type) (emb : String → Nat → Row)
    (ni : Bool) (B : KJT) (hn : B.keys.Nodup) (q : Nat)
    (hq : q < B.keys.length) :
    dictLookup (referenceForward Row emb ni B) (B.keys.getD q "")
      = some ⟨(B.valuesPerKey.getD q []).map (emb (B.keys.getD q "")),
          B.lengthsRows.getD q [],
          if ni then some (B.valuesPerKey.getD q []) else none⟩ := by
  unfold referenceForward
  exact dictLookup_map_range B.keys.length (fun p => B.keys.getD p "")
    (fun p => ({ values := (B.valuesPerKey.getD p []).map (emb (B.keys.getD p ""))
                 lengths := B.lengthsRows.getD p []
                 weights := if ni then some (B.valuesPerKey.getD p []) else none }
      : JaggedTensor Row))
    q hq (fun a ha he => nodup_getD_inj B.keys hn a q ha hq he)

/-- The features value `input_dist` works on (after the optional permute
gated by the computed `_features_order`) has the strategies' canonical key
order, is well-formed, and carries, at each key position, the input's data
for that key. -/
theorem effective_features_spec (B : KJT) (canonical : List String)
    (hw : B.wf) (hs : 0 < B.stride) (hn : B.keys.Nodup)
    (hperm : canonical.Perm B.keys) :
    (inputDistEffectiveFeatures B (computedFeaturesOrder canonical B.keys)).keys
        = canonical
    ∧ (inputDistEffectiveFeatures B (computedFeaturesOrder canonical B.keys)).wf
    ∧ (inputDistEffectiveFeatures B (computedFeaturesOrder canonical B.keys)).stride
        = B.stride
    ∧ ∀ p, p < canonical.length →
        (inputDistEffectiveFeatures B
            (computedFeaturesOrder canonical B.keys)).lengthsRows.getD p []
          = B.lengthsRows.getD (B.keys.indexOf (canonical.getD p "")) []
        ∧ (inputDistEffectiveFeatures B
            (computedFeaturesOrder canonical B.keys)).valuesPerKey.getD p []
          = B.valuesPerKey.getD (B.keys.indexOf (canonical.getD p "")) [] := by
  have hlen : canonical.length = B.keys.length := hperm.length_eq
  have hmemc : ∀ x ∈ canonical, x ∈ B.keys := fun x hx => hperm.mem_iff.mp hx
  unfold inputDistEffectiveFeatures computedFeaturesOrder
  simp only []
  by_cases hid : canonical.map (fun f => B.keys.indexOf f)
      = List.range (canonical.map (fun f => B.keys.indexOf f)).length
  · rw [if_pos hid]
    have hcan : canonical = B.keys := by
      apply list_ext_getD _ _ "" hlen
      intro p hp
      have h1 : (canonical.map (fun f => B.keys.indexOf f)).getD p 0 = p := by
        rw [hid, getD_range_of_lt _ (by simpa using hp)]
      rw [getD_map_of_lt _ _ _ "" hp] at h1
      have h2 := getD_indexOf_of_mem B.keys (canonical.getD p "")
        (hmemc _ (by rw [getD_eq_getElem_of_lt _ _ hp]; apply List.get_mem))
      rw [h1] at h2
      exact h2.symm
    simp only [List.isEmpty_nil, if_true]
    refine ⟨hcan.symm, hw, by trivial, ?_⟩
    intro p hp
    have hq : B.keys.indexOf (canonical.getD p "") = p := by
      rw [hcan] at hp ⊢
      exact indexOf_getD_of_nodup B.keys hn p hp
    rw [hq]
    constructor <;> rfl
  · rw [if_neg hid]
    have hne : (canonical.map (fun f => B.keys.indexOf f)).isEmpty = false := by
      cases hc : canonical with
      | nil =>
          exfalso
          apply hid
          rw [hc]
          rfl
      | cons a l => simp [hc]
    simp only [hne, Bool.false_eq_true, if_false]
    have hb : ∀ a ∈ canonical.map (fun f => B.keys.indexOf f),
        a < B.keys.length := by
      intro a ha
      obtain ⟨x, hx, rfl⟩ := List.mem_map.mp ha
      exact List.indexOf_lt_length.mpr (hmemc x hx)
    obtain ⟨eS, eK, eLR, eV, eW⟩ :=
      B.permute_spec hw hs (canonical.map (fun f => B.keys.indexOf f)) hb
    have hkeys : (B.permute (canonical.map (fun f => B.keys.indexOf f))).keys
        = canonical := by
      rw [eK, List.map_map]
      have : ∀ x ∈ canonical,
          ((fun i => B.keys.getD i "") ∘ (fun f => B.keys.indexOf f)) x = x := by
        intro x hx
        exact getD_indexOf_of_mem B.keys x (hmemc x hx)
      rw [List.map_congr_left this]
      exact List.map_id' canonical
    refine ⟨hkeys, eW, eS, ?_⟩
    intro p hp
    constructor
    · rw [eLR, getD_map_of_lt _ _ _ 0 (by simpa using hp),
        getD_map_of_lt _ _ _ "" hp]
    · rw [eV, getD_map_of_lt _ _ _ 0 (by simpa using hp),
        getD_map_of_lt _ _ _ "" hp]

theorem mem_taggedValues_intro (k : KJT) (q : Nat) (hq : q < k.keys.length)
    (v : Nat) (hv : v ∈ k.valuesPerKey.getD q []) :
    (k.keys.getD q "", v) ∈ k.taggedValues := by
  rw [KJT.taggedValues_eq]
  apply List.mem_flatten.mpr
  refine ⟨(k.valuesPerKey.getD q []).map (fun v => (k.keys.getD q "", v)), ?_, ?_⟩
  · exact List.mem_map_of_mem _ (List.mem_range.mpr hq)
  · exact List.mem_map_of_mem _ hv

theorem KJT.split_single (F : KJT) (hw : F.wf) (hs : 0 < F.stride) :
    F.split [F.keys.length] = [F] := by
  unfold KJT.split
  simp only [List.length_cons, List.length_nil, List.map_cons, List.map_nil,
    splitByLengths_cons, splitByLengths_nil, List.range_succ, List.range_zero,
    List.nil_append, List.getD_cons_zero, Nat.zero_add]
  congr 1
  apply KJT.ext_fields
  · exact List.take_length F.keys
  · rw [List.take_of_length_le (le_of_eq (F.lengthPerKey_length hw hs)),
      List.take_of_length_le (le_of_eq (F.lengthPerKey_sum hw hs).symm)]
  · exact List.take_of_length_le (le_of_eq hw.1)
  · rfl

/-- A forward pass of a sharded collection holding a single strategy produces
exactly the reference forward results of the permuted input. -/
theorem forwardCall_single_eq_reference (Row : Type) [Inhabited Row]
    (emb : String → Nat → Row) (ni : Bool) (st : Strategy) (B : KJT)
    (hFw : (inputDistEffectiveFeatures B
        (computedFeaturesOrder st.featureNames B.keys)).wf)
    (hFs : 0 < (inputDistEffectiveFeatures B
        (computedFeaturesOrder st.featureNames B.keys)).stride)
    (hFkeys : (inputDistEffectiveFeatures B
        (computedFeaturesOrder st.featureNames B.keys)).keys = st.featureNames)
    (hbound : ∀ r, st = Strategy.rw r →
      ∀ t ∈ (inputDistEffectiveFeatures B
          (computedFeaturesOrder st.featureNames B.keys)).taggedValues,
        rwBucketOf r t.1 t.2 < r.worldSize) :
    (forwardCall Row ⟨[st], ni, emb⟩ initialQECState B).2
      = referenceForward Row emb ni
          (inputDistEffectiveFeatures B
            (computedFeaturesOrder st.featureNames B.keys)) := by
  have hsplit := KJT.split_single (inputDistEffectiveFeatures B
    (computedFeaturesOrder st.featureNames B.keys)) hFw hFs
  rw [hFkeys] at hsplit
  unfold forwardCall computeAndOutputDistCall inputDistCall outputDistCall
    computeCall createInputDist createOutputDist outputJtDict initialQECState
  simp only [List.map_cons, List.map_nil, List.flatten_cons, List.flatten_nil,
    List.append_nil, List.nil_append, List.length_cons, List.length_nil,
    List.getD_cons_zero, List.zip_cons_cons, List.zip_nil_right, List.zip_nil_left,
    List.range_succ, List.range_zero, Nat.zero_add, if_true, hsplit]
  cases st with
  | tw t =>
      simp only [strategyInputDist, strategyLookup, strategyOutputDist,
        constructJaggedTensors]
      apply constructTw_split_eq_reference Row emb ni _ _ hFw hFs
      rw [hFkeys]
      show (t.featureNamesPerRank.map List.length).sum
        = t.featureNamesPerRank.flatten.length
      rw [List.length_flatten]
  | rw r =>
      simp only [strategyInputDist, strategyLookup, strategyOutputDist,
        constructJaggedTensors, List.length_map, List.length_range]
      have htens : (List.range r.worldSize).map (fun rank =>
          rwLookupTensor Row emb r rank
            (((List.range r.worldSize).map (fun rank =>
              rwBucketizeRank r (inputDistEffectiveFeatures B
                (computedFeaturesOrder (Strategy.rw r).featureNames B.keys))
                rank)).getD rank default))
          = (List.range r.worldSize).map (fun rank =>
              rwLookupTensor Row emb r rank
                (rwBucketizeRank r (inputDistEffectiveFeatures B
                  (computedFeaturesOrder (Strategy.rw r).featureNames B.keys))
                  rank)) := by
        apply List.map_congr_left
        intro rank hrank
        have hrank := List.mem_range.mp hrank
        rw [getD_map_of_lt _ _ _ 0 (by simpa using hrank),
          getD_range_of_lt _ hrank]
      rw [htens]
      exact constructRw_eq_reference Row emb ni r _ hFw hFs (hbound r rfl)

theorem taggedValues_mem_trans (B F : KJT) (st : Strategy)
    (eK : F.keys = st.featureNames)
    (hperm : st.featureNames.Perm B.keys)
    (hdata : ∀ p, p < st.featureNames.length →
      F.lengthsRows.getD p []
          = B.lengthsRows.getD (B.keys.indexOf (st.featureNames.getD p "")) []
        ∧ F.valuesPerKey.getD p []
          = B.valuesPerKey.getD (B.keys.indexOf (st.featureNames.getD p "")) []) :
    ∀ t ∈ F.taggedValues, t ∈ B.taggedValues := by
  intro t ht
  obtain ⟨p, hp, hk, hv⟩ := F.mem_taggedValues t ht
  rw [eK] at hp
  have hmemc : st.featureNames.getD p "" ∈ st.featureNames := by
    rw [getD_eq_getElem_of_lt _ _ hp]
    apply List.get_mem
  have hmemB : st.featureNames.getD p "" ∈ B.keys := hperm.mem_iff.mp hmemc
  have hq : B.keys.indexOf (st.featureNames.getD p "") < B.keys.length :=
    List.indexOf_lt_length.mpr hmemB
  obtain ⟨hrows, hvpk⟩ := hdata p hp
  have ht1 : t.1 = B.keys.getD (B.keys.indexOf (st.featureNames.getD p "")) "" := by
    rw [hk, eK, getD_indexOf_of_mem B.keys _ hmemB]
  have ht2 : t.2 ∈ B.valuesPerKey.getD
      (B.keys.indexOf (st.featureNames.getD p "")) [] := by
    rw [← hvpk]
    exact hv
  have hmem := mem_taggedValues_intro B _ hq t.2 ht2
  rw [← ht1] at hmem
  exact hmem

/-- Claim C9, amended: for every batch whose keys are exactly the module's
features (in any order) and every single-strategy assignment whose
row-partitioning covers the batch's values, the sharded forward pass agrees,
feature key by feature key, with the reference single-destination forward
pass. -/
theorem claim_C9_single_strategy_roundtrip (Row : Type) [Inhabited Row]
    (emb : String → Nat → Row) (ni : Bool) (st : Strategy) (B : KJT)
    (hw : B.wf) (hs : 0 < B.stride) (hn : B.keys.Nodup)
    (hperm : st.featureNames.Perm B.keys)
    (hbound : strategyBucketsBounded st B)
    (key : String) (hkey : key ∈ B.keys) :
    dictLookup (forwardCall Row ⟨[st], ni, emb⟩ initialQECState B).2 key
      = dictLookup (referenceForward Row emb ni B) key := by
  obtain ⟨eK, eW, eS, hdata⟩ :=
    effective_features_spec B st.featureNames hw hs hn hperm
  have hsub := taggedValues_mem_trans B
    (inputDistEffectiveFeatures B (computedFeaturesOrder st.featureNames B.keys))
    st eK hperm hdata
  have hboundF : ∀ r, st = Strategy.rw r →
      ∀ t ∈ (inputDistEffectiveFeatures B
          (computedFeaturesOrder st.featureNames B.keys)).taggedValues,
        rwBucketOf r t.1 t.2 < r.worldSize := by
    intro r hr t ht
    rw [hr] at hbound
    exact hbound t (hsub t ht)
  rw [forwardCall_single_eq_reference Row emb ni st B eW
    (by rw [eS]; exact hs) eK hboundF]
  have hnc : st.featureNames.Nodup := hperm.nodup_iff.mpr hn
  have hkeyc : key ∈ st.featureNames := hperm.mem_iff.mpr hkey
  have hp : st.featureNames.indexOf key < st.featureNames.length :=
    List.indexOf_lt_length.mpr hkeyc
  have hkeyp : st.featureNames.getD (st.featureNames.indexOf key) "" = key :=
    getD_indexOf_of_mem _ _ hkeyc
  have hq : B.keys.indexOf key < B.keys.length :=
    List.indexOf_lt_length.mpr hkey
  have hkeyq : B.keys.getD (B.keys.indexOf key) "" = key :=
    getD_indexOf_of_mem _ _ hkey
  have hFgetD : (inputDistEffectiveFeatures B
      (computedFeaturesOrder st.featureNames B.keys)).keys.getD
        (st.featureNames.indexOf key) "" = key := by
    rw [eK]
    exact hkeyp
  have base1 := referenceForward_dictLookup Row emb ni
    (inputDistEffectiveFeatures B (computedFeaturesOrder st.featureNames B.keys))
    (by rw [eK]; exact hnc) (st.featureNames.indexOf key)
    (by rw [eK]; exact hp)
  rw [hFgetD] at base1
  obtain ⟨hrows, hvpk⟩ := hdata (st.featureNames.indexOf key) hp
  rw [hkeyp] at hrows hvpk
  rw [hrows, hvpk] at base1
  have base2 := referenceForward_dictLookup Row emb ni B hn (B.keys.indexOf key) hq
  rw [hkeyq] at base2
  rw [base1, base2]

/-- The binding that `_construct_jagged_tensors_rw` produces for key `i` of
`features_before_input_dist` (keys distinct): values are the `i`-th
`length_per_key` segment of the unbucketized concatenation, lengths the
`i`-th lengths row, weights the `i`-th segment of the input values when
indices are requested. -/
theorem constructRw_binding (Row : Type) [Inhabited Row]
    (embeddings : List (List Row)) (fbid : KJT) (ni : Bool) (u : List Nat)
    (hn : fbid.keys.Nodup) (i : Nat) (hi : i < fbid.keys.length) :
    dictLookup (constructJaggedTensorsRw Row embeddings fbid ni u)
        (fbid.keys.getD i "")
      = some (⟨(splitByLengths fbid.lengthPerKey
            (indexSelect embeddings.flatten u)).getD i [],
          (viewRows fbid.stride fbid.lengths).getD i [],
          if ni then
            some ((splitByLengths fbid.lengthPerKey fbid.values).getD i [])
            else none⟩ : JaggedTensor Row) := by
  unfold constructJaggedTensorsRw
  simp only []
  exact dictLookup_map_range fbid.keys.length (fun p => fbid.keys.getD p "")
    (fun p => (⟨(splitByLengths fbid.lengthPerKey
            (indexSelect embeddings.flatten u)).getD p [],
        (viewRows fbid.stride fbid.lengths).getD p [],
        if ni then
            some ((splitByLengths fbid.lengthPerKey fbid.values).getD p [])
          else none⟩ : JaggedTensor Row))
    i hi (fun a ha he => nodup_getD_inj fbid.keys hn a i ha hi he)

theorem twPerDest_fst_mem (Row : Type) (e : List Row) (g : KJT) (ni : Bool)
    (p : String × JaggedTensor Row) (hp : p ∈ twPerDest Row e g ni) :
    p.1 ∈ g.keys := by
  unfold twPerDest at hp
  simp only [] at hp
  obtain ⟨j, hj, rfl⟩ := List.mem_map.mp hp
  show g.keys.getD j "" ∈ g.keys
  rw [getD_eq_getElem_of_lt _ _ (List.mem_range.mp hj)]
  apply List.get_mem

/-- The binding that `_construct_jagged_tensors_tw` produces for key `k` of
destination `i` (all destination keys distinct): it is built from destination
`i`'s own tensor and features alone — values the `k`-th segment of the
destination tensor split by the destination's `length_per_key`, lengths the
`k`-th per-example lengths row, weights the `k`-th segment of the
destination's input values when indices are requested. -/
theorem constructTw_binding (Row : Type) [Inhabited Row]
    (embeddings : List (List Row)) (features : List KJT) (ni : Bool)
    (hn : (((List.range embeddings.length).map
        (fun i => (features.getD i default).keys)).flatten).Nodup)
    (i k : Nat) (hi : i < embeddings.length)
    (hk : k < (features.getD i default).keys.length) :
    dictLookup (constructJaggedTensorsTw Row embeddings features ni)
        ((features.getD i default).keys.getD k "")
      = some (⟨(splitByLengths (features.getD i default).lengthPerKey
            (embeddings.getD i [])).getD k [],
          (viewRows (features.getD i default).stride
            (features.getD i default).lengths).getD k [],
          if ni then
            some ((splitByLengths (features.getD i default).lengthPerKey
              (features.getD i default).values).getD k [])
            else none⟩ : JaggedTensor Row) := by
  obtain ⟨hnodups, hdisj⟩ := List.nodup_flatten.mp hn
  unfold constructJaggedTensorsTw
  have hkey : (features.getD i default).keys.getD k ""
      ∈ (features.getD i default).keys := by
    rw [getD_eq_getElem_of_lt _ _ hk]
    apply List.get_mem
  have hstep := dictLookup_flatten_unique
    ((List.range embeddings.length).map (fun i =>
      twPerDest Row (embeddings.getD i []) (features.getD i default) ni))
    ((features.getD i default).keys.getD k "") i (by simpa using hi) ?hother
  case hother =>
    intro j hj hne p hp
    simp only [List.length_map, List.length_range] at hj
    rw [getD_map_of_lt _ _ _ 0 (by simpa using hj), getD_range_of_lt _ hj] at hp
    have hpmem := twPerDest_fst_mem Row _ _ _ p hp
    -- keys of group j and group i are disjoint
    have hpair := List.pairwise_iff_getElem.mp hdisj
    intro hcontra
    rcases Nat.lt_or_ge j i with hji | hij
    · have := hpair j i (by simpa using hj) (by simpa using hi) hji
      simp only [List.getElem_map, List.getElem_range] at this
      exact absurd (hcontra ▸ hkey) (this hpmem)
    · have hij2 : i < j := by omega
      have := hpair i j (by simpa using hi) (by simpa using hj) hij2
      simp only [List.getElem_map, List.getElem_range] at this
      exact absurd hpmem (this (hcontra ▸ hkey))
  rw [hstep, getD_map_of_lt _ _ _ 0 (by simpa using hi), getD_range_of_lt _ hi]
  unfold twPerDest
  simp only []
  have hniq : (features.getD i default).keys.Nodup := by
    apply hnodups
    apply List.mem_map_of_mem
    rw [List.mem_range]
    exact hi
  exact dictLookup_map_range (features.getD i default).keys.length
    (fun p => (features.getD i default).keys.getD p "")
    (fun p => (⟨(splitByLengths (features.getD i default).lengthPerKey
          (embeddings.getD i [])).getD p [],
        (viewRows (features.getD i default).stride
          (features.getD i default).lengths).getD p [],
        if ni then
            some ((splitByLengths (features.getD i default).lengthPerKey
              (features.getD i default).values).getD p [])
          else none⟩ : JaggedTensor Row))
    k hk (fun a ha he => nodup_getD_inj _ hniq a k ha hk he)

/-! ## Claim theorems -/

/-- C1: for row-wise sharding, the output reconstruction concatenates all
destinations' raw tensors along dimension 0, applies `index_select` with the
unbucketize permutation, splits the result by `length_per_key()` of
`features_before_input_dist`, and the `i`-th segment becomes the values of
the `JaggedTensor` for the `i`-th feature key (with that key's lengths row,
and the input values split per key as weights when indices are requested). -/
theorem claim_C1_rw_reconstruction (Row : Type) [Inhabited Row]
    (embeddings : List (List Row)) (fbid : KJT) (ni : Bool) (u : List Nat)
    (hn : fbid.keys.Nodup) (i : Nat) (hi : i < fbid.keys.length) :
    dictLookup (constructJaggedTensorsRw Row embeddings fbid ni u)
        (fbid.keys.getD i "")
      = some (⟨(splitByLengths fbid.lengthPerKey
            (indexSelect embeddings.flatten u)).getD i [],
          (viewRows fbid.stride fbid.lengths).getD i [],
          if ni then
            some ((splitByLengths fbid.lengthPerKey fbid.values).getD i [])
            else none⟩ : JaggedTensor Row) :=
  constructRw_binding Row embeddings fbid ni u hn i hi

theorem claim_C1_witness :
    testBatch.keys.Nodup
    ∧ dictLookup (constructJaggedTensorsRw Nat [[10], [20, 30]] testBatch true
          [1, 0, 2]) (testBatch.keys.getD 0 "")
      = some (⟨(splitByLengths testBatch.lengthPerKey
            (indexSelect ([[10], [20, 30]] : List (List Nat)).flatten
              [1, 0, 2])).getD 0 [],
          (viewRows testBatch.stride testBatch.lengths).getD 0 [],
          if true then
            some ((splitByLengths testBatch.lengthPerKey testBatch.values).getD 0 [])
            else none⟩ : JaggedTensor Nat) :=
  ⟨by decide,
    claim_C1_rw_reconstruction Nat [[10], [20, 30]] testBatch true [1, 0, 2]
      (by decide) 0 (by decide)⟩

/-- C2: for table-wise sharding, destination `i`'s raw tensor is split by
that destination's own `length_per_key()` and the `k`-th segment, with the
`k`-th per-example lengths row, forms the `JaggedTensor` of the `k`-th
feature key.  The produced binding is computed from destination `i`'s tensor
and features alone — shape-only reconstruction with no cross-destination
data movement or reordering. -/
theorem claim_C2_tw_reconstruction (Row : Type) [Inhabited Row]
    (embeddings : List (List Row)) (features : List KJT) (ni : Bool)
    (hn : (((List.range embeddings.length).map
        (fun i => (features.getD i default).keys)).flatten).Nodup)
    (i k : Nat) (hi : i < embeddings.length)
    (hk : k < (features.getD i default).keys.length) :
    dictLookup (constructJaggedTensorsTw Row embeddings features ni)
        ((features.getD i default).keys.getD k "")
      = some (⟨(splitByLengths (features.getD i default).lengthPerKey
            (embeddings.getD i [])).getD k [],
          (viewRows (features.getD i default).stride
            (features.getD i default).lengths).getD k [],
          if ni then
            some ((splitByLengths (features.getD i default).lengthPerKey
              (features.getD i default).values).getD k [])
            else none⟩ : JaggedTensor Row) :=
  constructTw_binding Row embeddings features ni hn i k hi hk

theorem claim_C2_witness :
    (((List.range ([[10, 20, 30]] : List (List Nat)).length).map
        (fun i => (([⟨["a", "b"], [0, 1, 2], [2, 0, 0, 1], 2⟩] : List KJT).getD
          i default).keys)).flatten).Nodup
    ∧ dictLookup (constructJaggedTensorsTw Nat [[10, 20, 30]]
          [⟨["a", "b"], [0, 1, 2], [2, 0, 0, 1], 2⟩] false)
        ((([⟨["a", "b"], [0, 1, 2], [2, 0, 0, 1], 2⟩] : List KJT).getD
          0 default).keys.getD 1 "")
      = some (⟨(splitByLengths (([⟨["a", "b"], [0, 1, 2], [2, 0, 0, 1], 2⟩] :
              List KJT).getD 0 default).lengthPerKey
            (([[10, 20, 30]] : List (List Nat)).getD 0 [])).getD 1 [],
          (viewRows (([⟨["a", "b"], [0, 1, 2], [2, 0, 0, 1], 2⟩] :
              List KJT).getD 0 default).stride
            (([⟨["a", "b"], [0, 1, 2], [2, 0, 0, 1], 2⟩] :
              List KJT).getD 0 default).lengths).getD 1 [],
          if false then
            some ((splitByLengths (([⟨["a", "b"], [0, 1, 2], [2, 0, 0, 1], 2⟩] :
                List KJT).getD 0 default).lengthPerKey
              (([⟨["a", "b"], [0, 1, 2], [2, 0, 0, 1], 2⟩] :
                List KJT).getD 0 default).values).getD 1 [])
            else none⟩ : JaggedTensor Nat) :=
  ⟨by decide,
    claim_C2_tw_reconstruction Nat [[10, 20, 30]]
      [⟨["a", "b"], [0, 1, 2], [2, 0, 0, 1], 2⟩] false (by decide) 0 1
      (by decide) (by decide)⟩

/-- C8: in both reconstruction paths, requesting indices populates every
binding's weights with the original input values split per key, while not
requesting them leaves weights `None`; the values and lengths of each
binding are identical in the two modes. -/
theorem claim_C8_weights_modes (Row : Type) [Inhabited Row]
    (eRw : List (List Row)) (fbid : KJT) (u : List Nat)
    (hnRw : fbid.keys.Nodup) (i : Nat) (hi : i < fbid.keys.length)
    (eTw : List (List Row)) (features : List KJT)
    (hnTw : (((List.range eTw.length).map
        (fun j => (features.getD j default).keys)).flatten).Nodup)
    (j k : Nat) (hj : j < eTw.length)
    (hk : k < (features.getD j default).keys.length) :
    (dictLookup (constructJaggedTensorsRw Row eRw fbid true u)
        (fbid.keys.getD i "")
      = some (⟨(splitByLengths fbid.lengthPerKey
            (indexSelect eRw.flatten u)).getD i [],
          (viewRows fbid.stride fbid.lengths).getD i [],
          some ((splitByLengths fbid.lengthPerKey fbid.values).getD i [])⟩ :
          JaggedTensor Row)
    ∧ dictLookup (constructJaggedTensorsRw Row eRw fbid false u)
        (fbid.keys.getD i "")
      = some (⟨(splitByLengths fbid.lengthPerKey
            (indexSelect eRw.flatten u)).getD i [],
          (viewRows fbid.stride fbid.lengths).getD i [],
          none⟩ : JaggedTensor Row))
    ∧ (dictLookup (constructJaggedTensorsTw Row eTw features true)
        ((features.getD j default).keys.getD k "")
      = some (⟨(splitByLengths (features.getD j default).lengthPerKey
            (eTw.getD j [])).getD k [],
          (viewRows (features.getD j default).stride
            (features.getD j default).lengths).getD k [],
          some ((splitByLengths (features.getD j default).lengthPerKey
            (features.getD j default).values).getD k [])⟩ : JaggedTensor Row)
    ∧ dictLookup (constructJaggedTensorsTw Row eTw features false)
        ((features.getD j default).keys.getD k "")
      = some (⟨(splitByLengths (features.getD j default).lengthPerKey
            (eTw.getD j [])).getD k [],
          (viewRows (features.getD j default).stride
            (features.getD j default).lengths).getD k [],
          none⟩ : JaggedTensor Row)) :=
  ⟨⟨constructRw_binding Row eRw fbid true u hnRw i hi,
    constructRw_binding Row eRw fbid false u hnRw i hi⟩,
   ⟨constructTw_binding Row eTw features true hnTw j k hj hk,
    constructTw_binding Row eTw features false hnTw j k hj hk⟩⟩

theorem claim_C8_witness :
    testBatch.keys.Nodup
    ∧ dictLookup (constructJaggedTensorsRw Nat [[10], [20, 30]] testBatch true
          [1, 0, 2]) (testBatch.keys.getD 1 "")
      = some (⟨(splitByLengths testBatch.lengthPerKey
            (indexSelect ([[10], [20, 30]] : List (List Nat)).flatten
              [1, 0, 2])).getD 1 [],
          (viewRows testBatch.stride testBatch.lengths).getD 1 [],
          some ((splitByLengths testBatch.lengthPerKey
            testBatch.values).getD 1 [])⟩ : JaggedTensor Nat)
    ∧ dictLookup (constructJaggedTensorsRw Nat [[10], [20, 30]] testBatch false
          [1, 0, 2]) (testBatch.keys.getD 1 "")
      = some (⟨(splitByLengths testBatch.lengthPerKey
            (indexSelect ([[10], [20, 30]] : List (List Nat)).flatten
              [1, 0, 2])).getD 1 [],
          (viewRows testBatch.stride testBatch.lengths).getD 1 [],
          none⟩ : JaggedTensor Nat) := by
  have h := claim_C8_weights_modes Nat [[10], [20, 30]] testBatch [1, 0, 2]
    (by decide) 1 (by decide) [[10, 20, 30]]
    [⟨["a", "b"], [0, 1, 2], [2, 0, 0, 1], 2⟩] (by decide) 0 1 (by decide)
    (by decide)
  exact ⟨by decide, h.1.1, h.1.2⟩

theorem mapExcept_cons_error {f : α → Except ε β} {x : α} (xs : List α)
    {e : ε} (h : f x = .error e) : mapExcept f (x :: xs) = .error e := by
  unfold mapExcept
  rw [h]
  rfl

theorem mapExcept_cons_ok_error {f : α → Except ε β} {x : α} {y : β}
    (h : f x = .ok y) {xs : List α} {e : ε}
    (h2 : mapExcept f xs = .error e) : mapExcept f (x :: xs) = .error e := by
  unfold mapExcept
  rw [h]
  simp only [bind, Except.bind]
  rw [h2]

theorem mapExcept_cons_ok_ok {f : α → Except ε β} {x : α} {y : β}
    (h : f x = .ok y) {xs : List α} {l : List β}
    (h2 : mapExcept f xs = .ok l) : mapExcept f (x :: xs) = .ok (y :: l) := by
  unfold mapExcept
  rw [h]
  simp only [bind, Except.bind]
  rw [h2]
  rfl

theorem createInfer_tw {a : String} (h : a = shardingTypeTableWise) :
    createInferEmbeddingSharding a = .ok .tableWise := by
  unfold createInferEmbeddingSharding
  rw [if_pos h]

theorem createInfer_rw {a : String} (h1 : a ≠ shardingTypeTableWise)
    (h2 : a = shardingTypeRowWise) :
    createInferEmbeddingSharding a = .ok .rowWise := by
  unfold createInferEmbeddingSharding
  rw [if_neg h1, if_pos h2]

theorem createInfer_bad {a : String} (h1 : a ≠ shardingTypeTableWise)
    (h2 : a ≠ shardingTypeRowWise) :
    createInferEmbeddingSharding a = .error (.unsupportedShardingType a) := by
  unfold createInferEmbeddingSharding
  rw [if_neg h1, if_neg h2]

theorem mapExcept_unsupported (types : List String) (t : String)
    (ht : t ∈ types) (htw : t ≠ shardingTypeTableWise)
    (hrw : t ≠ shardingTypeRowWise) :
    ∃ u, mapExcept createInferEmbeddingSharding types
        = .error (.unsupportedShardingType u)
      ∧ u ∈ types ∧ u ≠ shardingTypeTableWise ∧ u ≠ shardingTypeRowWise := by
  induction types with
  | nil => simp at ht
  | cons a rest ih =>
      by_cases haw : a = shardingTypeTableWise
      · have htrest : t ∈ rest := by
          rcases List.mem_cons.mp ht with h | h
          · exact absurd (h.trans haw) htw
          · exact h
        obtain ⟨u, herr, hmem, h1, h2⟩ := ih htrest
        exact ⟨u, mapExcept_cons_ok_error (createInfer_tw haw) herr,
          by simp [hmem], h1, h2⟩
      · by_cases har : a = shardingTypeRowWise
        · have htrest : t ∈ rest := by
            rcases List.mem_cons.mp ht with h | h
            · exact absurd (h.trans har) hrw
            · exact h
          obtain ⟨u, herr, hmem, h1, h2⟩ := ih htrest
          exact ⟨u, mapExcept_cons_ok_error (createInfer_rw haw har) herr,
            by simp [hmem], h1, h2⟩
        · exact ⟨a, mapExcept_cons_error rest (createInfer_bad haw har),
            by simp, haw, har⟩

theorem mapExcept_supported (types : List String)
    (h : ∀ t ∈ types, t = shardingTypeTableWise ∨ t = shardingTypeRowWise) :
    ∃ l, mapExcept createInferEmbeddingSharding types = .ok l := by
  induction types with
  | nil => exact ⟨[], rfl⟩
  | cons a rest ih =>
      obtain ⟨l, hl⟩ := ih (fun t htr => h t (by simp [htr]))
      by_cases haw : a = shardingTypeTableWise
      · exact ⟨.tableWise :: l, mapExcept_cons_ok_ok (createInfer_tw haw) hl⟩
      · have har : a = shardingTypeRowWise := by
          rcases h a (by simp) with h1 | h1
          · exact absurd h1 haw
          · exact h1
        exact ⟨.rowWise :: l, mapExcept_cons_ok_ok (createInfer_rw haw har) hl⟩

/-- C3: whenever the sharding-type assignment contains a type other than
table-wise or row-wise, constructing the sharded collection fails with the
`ValueError` of `create_infer_embedding_sharding` raised during `__init__`
(regardless of the fused-params flag). -/
theorem claim_C3_unsupported_type_fails (types : List String) (flag : Bool)
    (t : String) (ht : t ∈ types) (htw : t ≠ shardingTypeTableWise)
    (hrw : t ≠ shardingTypeRowWise) :
    ∃ u, shardedQuantEcInit types flag
        = .error (.unsupportedShardingType u)
      ∧ u ∈ types ∧ u ≠ shardingTypeTableWise ∧ u ≠ shardingTypeRowWise := by
  obtain ⟨u, herr, hmem, h1, h2⟩ := mapExcept_unsupported types t ht htw hrw
  refine ⟨u, ?_, hmem, h1, h2⟩
  unfold shardedQuantEcInit
  simp only [bind, Except.bind]
  rw [herr]

theorem claim_C3_witness :
    ("column_wise" : String) ∈ ["table_wise", "column_wise"]
    ∧ ("column_wise" : String) ≠ shardingTypeTableWise
    ∧ ("column_wise" : String) ≠ shardingTypeRowWise
    ∧ ∃ u, shardedQuantEcInit ["table_wise", "column_wise"] true
        = .error (.unsupportedShardingType u)
      ∧ u ∈ ["table_wise", "column_wise"] ∧ u ≠ shardingTypeTableWise
      ∧ u ≠ shardingTypeRowWise :=
  ⟨by decide, by decide, by decide,
    claim_C3_unsupported_type_fails ["table_wise", "column_wise"] true
      "column_wise" (by decide) (by decide) (by decide)⟩

/-- C5: with every sharding type supported, construction without the
quant-state-dict split-scale-bias flag succeeds exactly when every sharding
type is table-wise (otherwise the assertion fires), while with the flag set
any supported mix is accepted. -/
theorem claim_C5_scale_bias_flag (types : List String)
    (hsup : ∀ t ∈ types, t = shardingTypeTableWise ∨ t = shardingTypeRowWise) :
    ((∃ l, shardedQuantEcInit types false = .ok l)
      ↔ ∀ t ∈ types, t = shardingTypeTableWise)
    ∧ ∃ l, shardedQuantEcInit types true = .ok l := by
  obtain ⟨l, hl⟩ := mapExcept_supported types hsup
  constructor
  · constructor
    · intro hok t ht
      obtain ⟨l2, hl2⟩ := hok
      unfold shardedQuantEcInit at hl2
      simp only [bind, Except.bind] at hl2
      rw [hl] at hl2
      by_contra hne
      have hall : types.all (fun t => t = shardingTypeTableWise) = false := by
        rw [List.all_eq_false]
        exact ⟨t, ht, by simpa using hne⟩
      simp only [Bool.false_eq_true, if_false, hall] at hl2
      cases hl2
    · intro halltw
      refine ⟨l, ?_⟩
      unfold shardedQuantEcInit
      simp only [bind, Except.bind]
      rw [hl]
      have hall : types.all (fun t => t = shardingTypeTableWise) = true := by
        rw [List.all_eq_true]
        intro t ht
        simpa using halltw t ht
      simp only [hall, if_true]
      rfl
  · refine ⟨l, ?_⟩
    unfold shardedQuantEcInit
    simp only [bind, Except.bind]
    rw [hl]
    rfl

theorem claim_C5_witness :
    (∀ t ∈ ["table_wise", "row_wise"],
      t = shardingTypeTableWise ∨ t = shardingTypeRowWise)
    ∧ ¬ (∃ l, shardedQuantEcInit ["table_wise", "row_wise"] false = .ok l)
    ∧ (∃ l, shardedQuantEcInit ["table_wise", "row_wise"] true = .ok l) := by
  have h := claim_C5_scale_bias_flag ["table_wise", "row_wise"] (by decide)
  refine ⟨by decide, ?_, h.2⟩
  intro hok
  have := h.1.mp hok
  have h2 := this "row_wise" (by decide)
  simp [shardingTypeTableWise] at h2

theorem inputDistCall_flags (Row : Type) (m : QECModule Row) (s : QECState)
    (B : KJT) :
    (inputDistCall Row m s B).1.hasUninitializedInputDist = false
    ∧ (inputDistCall Row m s B).1.hasUninitializedOutputDist = false := by
  unfold inputDistCall createInputDist createOutputDist
  by_cases h1 : s.hasUninitializedInputDist
    <;> by_cases h2 : s.hasUninitializedOutputDist
    <;> simp [h1, h2]

theorem inputDistCall_steady (Row : Type) (m : QECModule Row) (s : QECState)
    (B : KJT) (hin : s.hasUninitializedInputDist = false)
    (hout : s.hasUninitializedOutputDist = false) :
    inputDistCall Row m s B
      = (s,
        ((List.range s.inputDists.length).map (fun i =>
          strategyInputDist (s.inputDists.getD i default)
            (((inputDistEffectiveFeatures B s.featuresOrder).split
              s.featureSplits).getD i default))).map (fun res =>
          { features := res.1
            featuresBeforeInputDist :=
              inputDistEffectiveFeatures B s.featuresOrder
            unbucketizePermuteTensor := res.2 }),
        ((List.range s.inputDists.length).map (fun i =>
          strategyInputDist (s.inputDists.getD i default)
            (((inputDistEffectiveFeatures B s.featuresOrder).split
              s.featureSplits).getD i default))).map (fun res => res.1)) := by
  unfold inputDistCall
  simp only [hin, hout, Bool.false_eq_true, if_false]

theorem inputDistCall_eq_second (Row : Type) (m : QECModule Row) (s : QECState)
    (B : KJT) :
    inputDistCall Row m (inputDistCall Row m s B).1 B
      = inputDistCall Row m s B := by
  obtain ⟨h1, h2⟩ := inputDistCall_flags Row m s B
  rw [inputDistCall_steady Row m (inputDistCall Row m s B).1 B h1 h2]
  unfold inputDistCall createInputDist createOutputDist
  by_cases ha : s.hasUninitializedInputDist
    <;> by_cases hb : s.hasUninitializedOutputDist
    <;> simp [ha, hb]

/-- C7 (amended): every call to `input_dist` appends one sharding context per
input distributor, recording the post-distribution features produced by that
distributor, the FULL post-permute feature collection (not the strategy's
restriction) as `features_before_input_dist`, and an unbucketize permutation
exactly when the strategy is row-wise. -/
theorem claim_C7_amended_full_features_context (Row : Type) (m : QECModule Row)
    (s : QECState) (B : KJT) :
    (inputDistCall Row m s B).2.1.length
        = (inputDistCall Row m s B).1.inputDists.length
    ∧ ∀ i, i < (inputDistCall Row m s B).1.inputDists.length →
        ((inputDistCall Row m s B).2.1.getD i default).features
            = (strategyInputDist
                ((inputDistCall Row m s B).1.inputDists.getD i default)
                (((inputDistEffectiveFeatures B
                    (inputDistCall Row m s B).1.featuresOrder).split
                  (inputDistCall Row m s B).1.featureSplits).getD i default)).1
          ∧ ((inputDistCall Row m s B).2.1.getD i default).featuresBeforeInputDist
            = inputDistEffectiveFeatures B (inputDistCall Row m s B).1.featuresOrder
          ∧ (((inputDistCall Row m s B).2.1.getD
                i default).unbucketizePermuteTensor ≠ none
              ↔ ∃ r, (inputDistCall Row m s B).1.inputDists.getD i default
                  = Strategy.rw r) := by
  obtain ⟨h1, h2⟩ := inputDistCall_flags Row m s B
  rw [← inputDistCall_eq_second Row m s B,
    inputDistCall_steady Row m (inputDistCall Row m s B).1 B h1 h2]
  simp only [List.length_map, List.length_range]
  refine ⟨by trivial, ?_⟩
  intro i hi
  rw [getD_map_of_lt _ _ _ default (by simpa using hi),
    getD_map_of_lt _ _ _ default (by simpa using hi),
    getD_range_of_lt _ hi]
  refine ⟨by trivial, by trivial, ?_⟩
  cases hst : (inputDistCall Row m s B).1.inputDists.getD i default with
  | tw t =>
      simp only [strategyInputDist]
      constructor
      · intro hc
        exact absurd rfl hc
      · intro ⟨r, hr⟩
        cases hr
  | rw r =>
      simp only [strategyInputDist]
      constructor
      · intro hc
        exact ⟨r, rfl⟩
      · intro hx
        simp

set_option maxRecDepth 8000 in
/-- C10: when the computed features order is the identity permutation,
`input_dist` stores an empty `_features_order` (so the permute step is
skipped), and the call coincides with the variant that explicitly permutes
the input by the identity permutation. -/
theorem claim_C10_identity_order_skips_permute (Row : Type) (m : QECModule Row)
    (B : KJT) (hw : B.wf) (hs : 0 < B.stride)
    (hid : ((m.strategies.map Strategy.featureNames).flatten).map
        (fun f => B.keys.indexOf f)
      = List.range (((m.strategies.map Strategy.featureNames).flatten).map
          (fun f => B.keys.indexOf f)).length) :
    (inputDistCall Row m initialQECState B).1.featuresOrder = []
    ∧ inputDistCall Row m initialQECState B
        = inputDistCallAlwaysPermute Row m initialQECState B := by
  have hpr : B.permute (List.range B.keys.length) = B :=
    KJT.permute_range B hw hs
  have key : ∀ order : List Nat,
      (if order.isEmpty then B.permute (List.range B.keys.length)
        else B.permute order) = inputDistEffectiveFeatures B order := by
    intro order
    unfold inputDistEffectiveFeatures
    cases h : order.isEmpty
    · simp only [h, Bool.false_eq_true, if_false]
    · simp only [h, if_true, hpr]
  constructor
  · unfold inputDistCall createInputDist createOutputDist initialQECState
    simp only [if_true, Bool.false_eq_true, if_false, List.nil_append]
    unfold computedFeaturesOrder
    simp only []
    rw [if_pos hid]
  · unfold inputDistCall inputDistCallAlwaysPermute
    simp only []
    rw [key]

lemma zip_zip_take {α β γ : Type} (a : List α) :
    ∀ (b : List β) (c : List γ) (n : Nat), a.length ≤ n →
      a.zip (b.zip (c.take n)) = a.zip (b.zip c) := by
  induction a with
  | nil => intro b c n h; simp
  | cons x a ih =>
    intro b c n h
    cases b with
    | nil => simp
    | cons y b =>
      cases c with
      | nil => simp
      | cons z c =>
        cases n with
        | zero => simp at h
        | succ n =>
          simp only [List.take_succ_cons, List.zip_cons_cons]
          rw [ih b c n (by simpa using h)]

/-- C6 (amended): `compute_and_output_dist` performs no cardinality check;
python `zip` stops at the shortest list, so sharding contexts beyond the
number of output distributors are silently ignored and only the overlapping
prefix is processed. -/
theorem claim_C6_amended_prefix_truncation (Row : Type) [Inhabited Row]
    (m : QECModule Row)
    (s : QECState) (ctxs : List ShardingContext) (input : List (List KJT)) :
    computeAndOutputDistCall Row m s ctxs input
      = computeAndOutputDistCall Row m s
          (ctxs.take s.outputDists.length) input := by
  unfold computeAndOutputDistCall outputDistCall
  simp only []
  rw [zip_zip_take s.outputDists (computeCall Row m input) ctxs
    s.outputDists.length (Nat.le_refl _)]

/-- C6 counterexample: a pure table-wise module called with one sharding
context too many.  The checked semantics the claim asserts fails (`none`),
yet even under strict `torch.split` error semantics the program completes
normally and returns exactly the computation on the matching prefix of
contexts — the extra context is silently ignored. -/
theorem claim_C6_counterexample :
    computeAndOutputDistChecked Nat twOnlyModule c6State c6CtxsExtra
        c6Input = none
    ∧ computeAndOutputDistCallStrict Nat twOnlyModule c6State c6CtxsExtra
        c6Input
      = some (computeAndOutputDistCall Nat twOnlyModule c6State c6Ctxs
          c6Input) :=
  ⟨rfl, rfl⟩

/-- C4: the first `input_dist` call creates the input and output distributors
(one per strategy), fixes the per-sharding feature splits and the features
order, clears both lazy-initialization flags, and a second call on the
resulting state re-initializes nothing and returns the identical result. -/
theorem claim_C4_lazy_once_init (Row : Type) (m : QECModule Row) (B : KJT) :
    (inputDistCall Row m initialQECState B).1.hasUninitializedInputDist = false
    ∧ (inputDistCall Row m initialQECState B).1.hasUninitializedOutputDist
        = false
    ∧ (inputDistCall Row m initialQECState B).1.inputDists = m.strategies
    ∧ (inputDistCall Row m initialQECState B).1.outputDists = m.strategies
    ∧ (inputDistCall Row m initialQECState B).1.featureSplits
        = m.strategies.map (fun st => st.featureNames.length)
    ∧ (inputDistCall Row m initialQECState B).1.featuresOrder
        = computedFeaturesOrder
            ((m.strategies.map Strategy.featureNames).flatten) B.keys
    ∧ inputDistCall Row m (inputDistCall Row m initialQECState B).1 B
        = inputDistCall Row m initialQECState B := by
  refine ⟨?_, ?_, ?_, ?_, ?_, ?_, inputDistCall_eq_second Row m initialQECState B⟩ <;>
  · unfold inputDistCall createInputDist createOutputDist initialQECState
    simp only [if_true, Bool.false_eq_true, if_false, List.nil_append]

/-- Witness for C7 at a concrete module, state and batch: the context
recorded for strategy 0 carries the full post-permute collection. -/
theorem claim_C7_witness :
    ((inputDistCall Nat testMixedModule initialQECState testBatch).2.1.getD 0
        default).featuresBeforeInputDist
      = inputDistEffectiveFeatures testBatch
          (inputDistCall Nat testMixedModule initialQECState
            testBatch).1.featuresOrder :=
  ((claim_C7_amended_full_features_context Nat testMixedModule initialQECState
      testBatch).2 0 (by decide)).2.1

/-- C7 counterexample: the recorded `features_before_input_dist` of strategy 0
carries the batch's full key list, not strategy 0's feature subset. -/
theorem claim_C7_counterexample :
    ((inputDistCall Nat testMixedModule initialQECState testBatch).2.1.getD 0
        default).featuresBeforeInputDist.keys = testBatch.keys
    ∧ ((inputDistCall Nat testMixedModule initialQECState testBatch).2.1.getD 0
        default).featuresBeforeInputDist.keys
      ≠ (testMixedModule.strategies.getD 0 default).featureNames :=
  ⟨rfl, by decide⟩

/-- Witness for C10: the test batch's key order already matches the
concatenated canonical feature order of the test module's strategies. -/
theorem claim_C10_witness :
    (inputDistCall Nat testMixedModule initialQECState
        testBatch).1.featuresOrder = []
    ∧ inputDistCall Nat testMixedModule initialQECState testBatch
        = inputDistCallAlwaysPermute Nat testMixedModule initialQECState
            testBatch :=
  claim_C10_identity_order_skips_permute Nat testMixedModule testBatch
    (by decide) (by decide) (by decide)

/-- Witness for C9: a module with a single row-wise strategy round-trips the
test batch at key `feature_0`. -/
theorem claim_C9_witness :
    dictLookup (forwardCall Nat ⟨[testRwStrategy], false, testEmb⟩
        initialQECState testBatch).2 "feature_0"
      = dictLookup (referenceForward Nat testEmb false testBatch)
          "feature_0" :=
  claim_C9_single_strategy_roundtrip Nat testEmb false testRwStrategy testBatch
    (by decide) (by decide) (by decide) (by decide) (by decide) "feature_0"
    (by decide)

/-- C9 counterexample: with one table-wise and one row-wise strategy the
forward pass does not reproduce the reference — it does not return at all:
`_construct_jagged_tensors_rw` splits the row-wise shard's 3-row
concatenated tensor by the full `length_per_key` `[3, 3]` of
`features_before_input_dist` (src lines 145-147), and `torch.split` raises a
RuntimeError on the inexact sum, while the reference forward returns an
ordinary value at every key. -/
theorem claim_C9_counterexample :
    (forwardCallStrict Nat testMixedModule initialQECState testBatch).2 = none
    ∧ dictLookup (referenceForward Nat testEmb false testBatch) "feature_1"
        = some ⟨[100, 101, 102], [2, 0, 1], none⟩ :=
  ⟨rfl, rfl⟩
